import Mathlib

/-!
Verification of the SOLID_STRUCTURE BOM converter core
(`src/core/data_processor.py`, `src/core/converter.py`,
`src/core/validators.py`) as a shallow embedding in Lean 4.

Modelling conventions:
* Spreadsheet cells that may be missing (NaN in pandas) are `Option`.
* Quantities are `Int` (the algorithm only adds them; a missing quantity
  counts as 0, mirroring `quantity if pd.notna(quantity) else 0`).
* Python `dict`s are insertion-ordered association lists; `d[k] = v`
  becomes `setKey`, `d.get(k, 0) + q` accumulation becomes `addTo`,
  membership becomes `containsKey`.
* Python strings are processed through their character lists so that every
  definition is structurally recursive and kernel-evaluable.
* Audit records whose Python representation interpolates numbers into
  message strings (MOTIVO, CODIGO MP20) are modelled as structures holding
  those numbers as fields (rank, occurrence count, consolidated quantity).
-/

namespace SolidStructure

abbrev Qty := Int

/-- Model of Python str.strip: drop whitespace from both ends. -/
def stripL (cs : List Char) : List Char :=
  ((cs.dropWhile Char.isWhitespace).reverse.dropWhile Char.isWhitespace).reverse

/-- Model of Python s.split(".") on a character list. -/
def splitDots : List Char → List (List Char)
  | [] => [[]]
  | c :: rest =>
    let r := splitDots rest
    if c = '.' then [] :: r
    else
      match r with
      | s :: ss => (c :: s) :: ss
      | [] => [[c]]

/-- Model of Python s.endswith(suf) on character lists. -/
def endsWithL (suf cs : List Char) : Bool :=
  suf.reverse.isPrefixOf cs.reverse

/-- Model of OLGCodeConverter.convert_olg_code (data_processor.py lines 20-80).
None or blank input gives none; an input shorter than 3 characters is
returned stripped but otherwise unchanged; otherwise a leading "OL"
followed by an alphabetic character is removed, then every dash and space
is removed, and an empty result gives none. -/
def convertChars (s : List Char) : Option String :=
  if s.isEmpty then none
  else if s.length < 3 then some (String.mk s)
  else
    let kept :=
      if ['O', 'L'].isPrefixOf s ∧ 3 ≤ s.length ∧ (s.getD 2 'A').isAlpha
      then s.drop 2 else s
    let cleaned := kept.filter (fun ch => !(ch == '-' || ch == ' '))
    if cleaned.isEmpty then none else some (String.mk cleaned)

def convert_olg_code (olg : Option String) : Option String :=
  match olg with
  | none => none
  | some raw => convertChars (stripL raw.toList)

/-- Model of HierarchyLevelParser.parse_hierarchy_level (data_processor.py
lines 89-148). Returns the 0-based hierarchy level, or -1 for invalid
input. -/
def parseLevelChars (s : List Char) : Int :=
  if s.isEmpty then -1
  else if !(s.all fun c => c.isDigit || c == '.' || c.isWhitespace) then -1
  else
    let parts := splitDots s
    if parts.any (fun p =>
        let pc := stripL p
        !pc.isEmpty && !(pc.all Char.isDigit)) then -1
    else if parts.length == 1 then 0
    else if parts.length == 2 && (stripL (parts.getD 1 []) == ['0']) then 0
    else ((s.count '.' : Nat) : Int)

def parse_hierarchy_level (item : Option String) : Int :=
  match item with
  | none => -1
  | some raw => parseLevelChars (stripL raw.toList)

/-! Association-list operations modelling insertion-ordered Python dicts. -/

/-- Model of d[k] = d.get(k, 0) + q: update in place, else append. -/
def addTo {κ : Type} [DecidableEq κ] : List (κ × Qty) → κ → Qty → List (κ × Qty)
  | [], k, q => [(k, q)]
  | (k1, v1) :: rest, k, q =>
    if k1 = k then (k1, v1 + q) :: rest else (k1, v1) :: addTo rest k q

/-- Model of d[k] = v: overwrite in place, else append. -/
def setKey {κ α : Type} [DecidableEq κ] : List (κ × α) → κ → α → List (κ × α)
  | [], k, v => [(k, v)]
  | (k1, v1) :: rest, k, v =>
    if k1 = k then (k1, v) :: rest else (k1, v1) :: setKey rest k v

/-- Model of d.setdefault(k, []).append(a): append to the list at k. -/
def addOcc {κ α : Type} [DecidableEq κ] : List (κ × List α) → κ → α → List (κ × List α)
  | [], k, a => [(k, [a])]
  | (k1, l) :: rest, k, a =>
    if k1 = k then (k1, l ++ [a]) :: rest else (k1, l) :: addOcc rest k a

/-- Model of d.get(k) / d[k]. -/
def lookupK {κ α : Type} [DecidableEq κ] : List (κ × α) → κ → Option α
  | [], _ => none
  | (k1, v) :: rest, k => if k1 = k then some v else lookupK rest k

/-- Model of if k not in d: d[k] = v. -/
def setIfAbsent {κ α : Type} [DecidableEq κ] (m : List (κ × α)) (k : κ) (v : α) :
    List (κ × α) :=
  if (lookupK m k).isSome then m else m ++ [(k, v)]

/-- Model of k in d. -/
def containsKey {κ α : Type} [DecidableEq κ] (m : List (κ × α)) (k : κ) : Bool :=
  (lookupK m k).isSome

def keysOf {κ α : Type} (m : List (κ × α)) : List κ := m.map Prod.fst

/-! Data model. -/

/-- A classified valid source row as stored in items_by_level: the stripped
ITEM string, the QTD cell, the converted code, and the 0-based source
index. -/
structure Row where
  item : String
  qty : Option Qty
  code : String
  idx : Nat
deriving DecidableEq, Repr

/-- One raw source-table row with the four fields the core reads. -/
structure SrcRow where
  item : String
  qtd : Option Qty
  drawing : Option String
  material : Option String
deriving DecidableEq, Repr

/-- Exclusion reason, standing for the MOTIVO message strings of
process_excel_data. -/
inductive ExclReason
  | caretInDrawing
  | noConvertedCode
  | invalidLevel
deriving DecidableEq, Repr

structure ExclusionRecord where
  motivo : ExclReason
  linha : Nat
  item : String
  qtd : Option Qty
  drawing : Option String
  material : Option String
deriving DecidableEq, Repr

/-- Model of models.ProcessingStats. -/
structure ProcessingStats where
  total_rows : Nat
  valid_rows : Nat
  excluded_rows : Nat
  duplicate_rows : Nat
  consolidated_rows : Nat
  generated_relationships : Nat
deriving DecidableEq, Repr

abbrev LIndex := List (Nat × List Row)

structure ClassifyResult where
  itemsByLevel : LIndex
  itemToCode : List (String × String)
  exclusions : List ExclusionRecord
  stats : ProcessingStats
deriving DecidableEq, Repr

/-! Row Classifier: DataProcessor.process_excel_data
(data_processor.py lines 159-243). -/

/-- Model of pd.notna(drawing_number) and a caret in str(drawing_number). -/
def caretHit (d : Option String) : Bool :=
  match d with
  | some s => s.toList.contains '^'
  | none => false

structure ClassState where
  itemsByLevel : LIndex
  itemToCode : List (String × String)
  exclusions : List ExclusionRecord
  caretCount : Nat
  noCodeCount : Nat
  invalidLevelCount : Nat
  validCount : Nat
deriving DecidableEq, Repr

/-- The per-row loop of process_excel_data; i is the dataframe index of the
head row. -/
def process_rows : List SrcRow → Nat → ClassState → ClassState
  | [], _, st => st
  | r :: rest, i, st =>
    let item := String.mk (stripL r.item.toList)
    if caretHit r.drawing then
      process_rows rest (i + 1) { st with
        exclusions := st.exclusions ++
          [⟨.caretInDrawing, i + 2, item, r.qtd, r.drawing, r.material⟩],
        caretCount := st.caretCount + 1 }
    else
      match convert_olg_code r.drawing with
      | none =>
        process_rows rest (i + 1) { st with
          exclusions := st.exclusions ++
            [⟨.noConvertedCode, i + 2, item, r.qtd, r.drawing, r.material⟩],
          noCodeCount := st.noCodeCount + 1 }
      | some code =>
        if parse_hierarchy_level (some item) < 0 then
          process_rows rest (i + 1) { st with
            exclusions := st.exclusions ++
              [⟨.invalidLevel, i + 2, item, r.qtd, r.drawing, r.material⟩],
            invalidLevelCount := st.invalidLevelCount + 1 }
        else
          process_rows rest (i + 1) { st with
            itemsByLevel := addOcc st.itemsByLevel
              (parse_hierarchy_level (some item)).toNat ⟨item, r.qtd, code, i⟩,
            itemToCode := setKey st.itemToCode item code,
            validCount := st.validCount + 1 }

/-- Model of DataProcessor.process_excel_data. -/
def process_excel_data (df : List SrcRow) : ClassifyResult :=
  let st := process_rows df 0 ⟨[], [], [], 0, 0, 0, 0⟩
  { itemsByLevel := st.itemsByLevel,
    itemToCode := st.itemToCode,
    exclusions := st.exclusions,
    stats := ⟨df.length, st.validCount,
      st.caretCount + st.noCodeCount + st.invalidLevelCount, 0, 0, 0⟩ }

/-! Relationship Builder: CSVGenerator.build_parent_child_relationships
(data_processor.py lines 252-396). -/

structure OutRow where
  emp : String
  mtg : String
  cod : String
  qtd : Qty
  per : Nat
deriving DecidableEq, Repr

/-- Duplicate audit record; rank and ofCount stand for the i+1/N rendered
into MOTIVO and CODIGO MP20, consQty for the consolidated total in
MOTIVO. -/
structure DupRecord where
  rank : Nat
  ofCount : Nat
  consQty : Qty
  linha : Nat
  item : String
  qtd : Option Qty
  code : String
deriving DecidableEq, Repr

/-- Consolidation audit record; parent and child stand for the codes
rendered into ITEM and the drawing column, occurrences for the count in
CODIGO MP20. -/
structure ConsRecord where
  parent : String
  qtd : Qty
  child : String
  occurrences : Nat
deriving DecidableEq, Repr

structure BState where
  output_rows : List OutRow
  edge_to_quantity : List ((String × String) × Qty)
  processed : List (String × (String × Nat))
  duplicate_records : List DupRecord
  consolidated_relationships : List ConsRecord
deriving DecidableEq, Repr

/-- The three dicts built by one scan of a row list: code_occurrences,
aggregate quantities, and first-occurrence representative items. -/
structure Agg where
  occ : List (String × List Row)
  agg : List (String × Qty)
  rep : List (String × String)
deriving DecidableEq, Repr

def aggStep (a : Agg) (r : Row) : Agg :=
  { occ := addOcc a.occ r.code r,
    agg := addTo a.agg r.code (r.qty.getD 0),
    rep := setIfAbsent a.rep r.code r.item }

def aggRows (rows : List Row) : Agg := rows.foldl aggStep ⟨[], [], []⟩

/-- Duplicate records emitted for one code: one per occurrence, ranked from
1, only when there is more than one occurrence. -/
def dupsFor (occList : List Row) (totalQty : Qty) : List DupRecord :=
  if occList.length > 1 then
    (List.enumFrom 1 occList).map (fun p =>
      ⟨p.1, occList.length, totalQty, p.2.idx + 2, p.2.item, p.2.qty, p.2.code⟩)
  else []

def initState : BState := ⟨[], [], [], [], []⟩

abbrev Adds := List (String × (String × Nat))

/-- The body of the level-0 emission loop, for one aggregate entry: the
duplicate records (when more than one occurrence), the consolidation
record (same condition), the edge, the parent registration at depth 0,
and the output row. The Python statements touch pairwise disjoint fields,
so they are written as one record update. -/
def emitL0Body (root : String) (a : Agg) (st : BState) (p : String × Qty) : BState :=
  let c := p.1
  let q := p.2
  let occList := (lookupK a.occ c).getD []
  { output_rows := st.output_rows ++ [⟨"001", root, c, q, 0⟩],
    edge_to_quantity := addTo st.edge_to_quantity (root, c) q,
    processed := setKey st.processed c ((lookupK a.rep c).getD "", 0),
    duplicate_records := st.duplicate_records ++ dupsFor occList q,
    consolidated_relationships := st.consolidated_relationships ++
      (if occList.length > 1 then [⟨root, q, c, occList.length⟩] else []) }

/-- The level-0 pass: iterate the aggregate dict in insertion order. -/
def emitLevel0 (root : String) (a : Agg) (st : BState) : BState :=
  a.agg.foldl (emitL0Body root a) st

def level0Pass (idx : LIndex) (root : String) : BState :=
  match lookupK idx 0 with
  | some rows => emitLevel0 root (aggRows rows) initState
  | none => initState

/-- Prefix matching of a candidate child row item against a parent item
(data_processor.py lines 333-353). -/
def matchesParent (parentItem : String) (item : String) : Bool :=
  let p := parentItem.toList
  let i := item.toList
  if endsWithL ['.', '0'] p then
    ((splitDots p).headD [] ++ ['.']).isPrefixOf i && !(endsWithL ['.', '0'] i)
  else
    (p ++ ['.']).isPrefixOf i

/-- The body of one parent-pass emission loop iteration, for one aggregate
entry of the parent under processing: the consolidation record (when more
than one occurrence), the edge, the output row, and the guarded
next-level-parent candidate. -/
def parentBody (a : Agg) (pc : String) (lvl : Nat) (sa : BState × Adds)
    (p : String × Qty) : BState × Adds :=
  let st := sa.1
  let adds := sa.2
  let c := p.1
  let q := p.2
  let occLen := ((lookupK a.occ c).getD []).length
  let st2 : BState := { st with
    consolidated_relationships := st.consolidated_relationships ++
      (if occLen > 1 then [⟨pc, q, c, occLen⟩] else []),
    edge_to_quantity := addTo st.edge_to_quantity (pc, c) q,
    output_rows := st.output_rows ++ [⟨"001", pc, c, q, 0⟩] }
  let adds1 := if !(containsKey st2.processed c) && !(containsKey adds c) then
      adds ++ [(c, ((lookupK a.rep c).getD "", lvl))]
    else adds
  (st2, adds1)

/-- Processing of one previous-level parent inside the level pass: filter
and aggregate its matching children, emit all duplicate records first
(the separate occurrences loop of the source), then run the emission loop
over the aggregate entries. -/
def parentPass (lvRows : List Row) (lvl : Nat) (pc pitem : String)
    (sa : BState × Adds) : BState × Adds :=
  let a := aggRows (lvRows.filter (fun r => matchesParent pitem r.item))
  let st0 := { sa.1 with duplicate_records := sa.1.duplicate_records ++
      (a.occ.foldl (fun acc p => acc ++ dupsFor p.2 ((lookupK a.agg p.1).getD 0)) []) }
  a.agg.foldl (parentBody a pc lvl) (st0, sa.2)

def passBody (lvRows : List Row) (lvl : Nat) (sa : BState × Adds)
    (pr : String × (String × Nat)) : BState × Adds :=
  parentPass lvRows lvl pr.1 pr.2.1 sa

/-- One iteration of the while loop: process every parent registered at the
previous depth, then merge the next-level additions into the parent
registry. -/
def levelPass (idx : LIndex) (lvl : Nat) (st : BState) : BState :=
  let lvRows := (lookupK idx lvl).getD []
  let parents := st.processed.filter (fun p => p.2.2 == lvl - 1)
  let r := parents.foldl (passBody lvRows lvl) (st, ([] : Adds))
  { r.1 with processed := r.1.processed ++ r.2 }

/-- The while-loop condition: rows exist at this level and a parent is
registered at the previous depth. -/
def loopCond (idx : LIndex) (st : BState) (lvl : Nat) : Bool :=
  containsKey idx lvl && st.processed.any (fun p => p.2.2 == lvl - 1)

/-- The while loop, with explicit fuel and the final current_level
returned; the fuel chosen in the top-level entry point is enough for the
loop to reach its exit condition (proved below). -/
def buildLoop (idx : LIndex) : Nat → BState → Nat → BState × Nat
  | 0, st, lvl => (st, lvl)
  | fuel + 1, st, lvl =>
    if loopCond idx st lvl then buildLoop idx fuel (levelPass idx lvl st) (lvl + 1)
    else (st, lvl)

def maxKey (idx : LIndex) : Nat := idx.foldl (fun m p => max m p.1) 0

/-- Model of CSVGenerator.build_parent_child_relationships. -/
def build_parent_child_relationships (idx : LIndex) (root : String) : BState :=
  (buildLoop idx (maxKey idx + 1) (level0Pass idx root) 1).1

/-! Verifier and conversion decision path
(converter.py lines 392-404, validators.py lines 79-81). -/

/-- The Verifier count check: generated CSV rows versus the number of
entries of edge_to_quantity. -/
def verifyCount (st : BState) : Bool :=
  st.output_rows.length == st.edge_to_quantity.length

/-- Model of DataFrameValidator.validate_dataframe_structure restricted to
its data-dependent content: an empty dataframe is rejected (the
required-column checks always pass here because SrcRow carries all four
required fields by construction). -/
def dataframeStructureValid (df : List SrcRow) : Bool := !df.isEmpty

inductive ConvError
  | structureInvalid
  | countMismatch
deriving DecidableEq, Repr

/-- Model of the dataframe-dependent decision path of
XLSXToCSVConverter.convert: structure validation gates the pipeline, then
classification feeds the builder whose output the Verifier checks; file
input and output and the request-level file checks are collaborator
concerns outside this model. -/
def convertCore (df : List SrcRow) (assemblyCode : String) :
    Except ConvError (List OutRow) :=
  let root := String.mk (stripL assemblyCode.toList)
  if !(dataframeStructureValid df) then .error .structureInvalid
  else
    let res := process_excel_data df
    let b := build_parent_child_relationships res.itemsByLevel root
    if !(verifyCount b) then .error .countMismatch
    else .ok b.output_rows

/-! Specification-side definitions, written from the words of the spec
claims, to be compared with the source-derived definitions above. -/

/-- Written from the words of the Code Normalizer claim: null on null or
blank input; the stripped input unchanged when shorter than 3 characters;
otherwise the leading two-letter prefix is stripped exactly when the input
starts with it followed by an alphabetic character, keeping that letter
and the remainder, then every dash and space is removed, with an empty
result mapped to null. -/
def normalizeSpecChars (s : List Char) : Option String :=
  if s = [] then none
  else if s.length < 3 then some (String.mk s)
  else
    let kept :=
      if s.take 2 = ['O', 'L'] ∧ ((s.drop 2).headD 'A').isAlpha
      then s.drop 2 else s
    let cleaned := kept.filter (fun ch => ch != '-' && ch != ' ')
    if cleaned = [] then none else some (String.mk cleaned)

def normalizeSpec (olg : Option String) : Option String :=
  match olg with
  | none => none
  | some raw => normalizeSpecChars (stripL raw.toList)

/-- Written from the literal words of the Level Parser claim: blank input
or a character outside digits, dots and whitespace is invalid; a non-empty
dot-separated segment that is not all digits is invalid (the claim does
not trim segments before this check, only before the second-segment-zero
comparison); otherwise one segment gives 0, two segments with second
segment trimming to zero give 0, and any other shape gives the dot
count. -/
def levelSpecLiteral (item : Option String) : Int :=
  match item with
  | none => -1
  | some raw =>
    let s := stripL raw.toList
    if s.isEmpty then -1
    else if !(s.all fun c => c.isDigit || c == '.' || c.isWhitespace) then -1
    else
      let parts := splitDots s
      if parts.any (fun p => !p.isEmpty && !(p.all Char.isDigit)) then -1
      else if parts.length == 1 then 0
      else if parts.length == 2 && (stripL (parts.getD 1 []) == ['0']) then 0
      else ((s.count '.' : Nat) : Int)

/-- The amended validity condition of the Level Parser claim: non-blank,
only digits, dots and whitespace, and every segment that is non-empty
after trimming is all digits. -/
def LevelInputOK (s : List Char) : Prop :=
  s ≠ [] ∧ (∀ c ∈ s, (c.isDigit ∨ c = '.') ∨ c.isWhitespace) ∧
  (∀ p ∈ splitDots s, stripL p ≠ [] → ∀ c ∈ stripL p, c.isDigit)

instance (s : List Char) : Decidable (LevelInputOK s) := by
  unfold LevelInputOK
  infer_instance

/-- The level value the claim assigns to a valid input: 0 for one segment,
0 for two segments whose second trims to zero, otherwise the dot count. -/
def levelOKValue (s : List Char) : Int :=
  if (splitDots s).length = 1 then 0
  else if (splitDots s).length = 2 ∧ stripL ((splitDots s).getD 1 []) = ['0'] then 0
  else ((s.count '.' : Nat) : Int)

/-! Per-row outcome functions written from the Row Classifier claim: the
exclusion checks in short-circuit order (caret, then missing converted
code, then invalid level), the 1-based human line number index + 2, and
the bucket entry for a valid row. -/

def exclOf (i : Nat) (r : SrcRow) : Option ExclusionRecord :=
  let item := String.mk (stripL r.item.toList)
  if caretHit r.drawing then
    some ⟨.caretInDrawing, i + 2, item, r.qtd, r.drawing, r.material⟩
  else
    match convert_olg_code r.drawing with
    | none => some ⟨.noConvertedCode, i + 2, item, r.qtd, r.drawing, r.material⟩
    | some _ =>
      if parse_hierarchy_level (some item) < 0 then
        some ⟨.invalidLevel, i + 2, item, r.qtd, r.drawing, r.material⟩
      else none

def validOf (i : Nat) (r : SrcRow) : Option (Nat × Row) :=
  let item := String.mk (stripL r.item.toList)
  if caretHit r.drawing then none
  else
    match convert_olg_code r.drawing with
    | none => none
    | some code =>
      if parse_hierarchy_level (some item) < 0 then none
      else some ((parse_hierarchy_level (some item)).toNat, ⟨item, r.qtd, code, i⟩)

/-! Derived notions used by the claims about the Relationship Builder. -/

/-- The parent-child pair carried by each emitted CSV row. -/
def pairsOf (st : BState) : List (String × String) :=
  st.output_rows.map (fun r => (r.mtg, r.cod))

/-- Sum of the values of an association list. -/
def sumQ {κ : Type} (m : List (κ × Qty)) : Qty := (m.map Prod.snd).sum

/-- Sum of the quantities a parent code carries on its outgoing edges. -/
def sumFor (m : List ((String × String) × Qty)) (p : String) : Qty :=
  sumQ (m.filter (fun x => x.1.1 = p))

/-- Sum of the quantities of a row list, a missing quantity counted 0. -/
def rowsQtySum (rows : List Row) : Qty := (rows.map (fun r => r.qty.getD 0)).sum

/-- The rows stored at one level of the leveled index. -/
def rowsAtL (idx : LIndex) (l : Nat) : List Row := (lookupK idx l).getD []

/-- The aggregated children one parent item selects at the scanned level. -/
def childAgg (lvRows : List Row) (pitem : String) : List (String × Qty) :=
  (aggRows (lvRows.filter (fun r => matchesParent pitem r.item))).agg

/-- Freshness of the root assembly code: it is not the converted code of
any classified row. -/
def RootFresh (idx : LIndex) (root : String) : Prop :=
  ∀ p ∈ idx, ∀ r ∈ p.2, r.code ≠ root

/-! Concrete inputs used by scenario claims, counterexamples and
witnesses. -/

/-- Scenario B input: two top-level occurrences of the same drawing. -/
def dfScenarioB : List SrcRow :=
  [⟨"1", some 2, some "OLG12-06-1001", some "M1"⟩,
   ⟨"2", some 3, some "OLG12-06-1001", some "M1"⟩]

/-- Scenario A input: one assembly with one child. -/
def dfScenarioA : List SrcRow :=
  [⟨"1", some 2, some "OLG12-06-1001", some "M1"⟩,
   ⟨"1.1", some 3, some "OLZ-03-058-032", some "M2"⟩]

def idxScenarioA : LIndex := (process_excel_data dfScenarioA).itemsByLevel

/-- Root-collision input: the root assembly code also occurs as the
converted code of a classified top-level row, so the pair (ROOT, A23) is
derived once at level 0 and once again when the registered parent with
code ROOT is expanded. -/
def dfCollide : List SrcRow :=
  [⟨"1", some 1, some "ROOT", some "M"⟩,
   ⟨"2", some 1, some "A23", some "M"⟩,
   ⟨"1.1", some 1, some "A23", some "M"⟩]

def idxCollide : LIndex := (process_excel_data dfCollide).itemsByLevel

/-- Orphan input: a valid level-2 row with no level-1 rows, so the
breadth-first loop stops before ever scanning level 2. -/
def dfOrphan : List SrcRow :=
  [⟨"1", some 1, some "A11", some "M"⟩,
   ⟨"1.1.1", some 1, some "B22", some "M"⟩]

def idxOrphan : LIndex := (process_excel_data dfOrphan).itemsByLevel

instance (idx : LIndex) (root : String) : Decidable (RootFresh idx root) := by
  unfold RootFresh
  infer_instance

/-- The edges one parent entry contributes during its pass. -/
def edgeBlockE (lvRows : List Row) (e : String × (String × Nat)) :
    List ((String × String) × Qty) :=
  (childAgg lvRows e.2.1).map (fun p => ((e.1, p.1), p.2))

/-- The output rows one parent entry contributes during its pass. -/
def rowBlockE (lvRows : List Row) (e : String × (String × Nat)) : List OutRow :=
  (childAgg lvRows e.2.1).map (fun p => ⟨"001", e.1, p.1, p.2, 0⟩)

/-- The loop invariant of the breadth-first builder, at entry to the pass
for level lvl: output rows and edge-map keys list the same pairs in the
same order without duplicates; registered parents have duplicate-free
codes, levels below lvl, codes different from the root; every edge is
keyed by the root or by an already-expanded parent; and every registered
parent carries, as the sum of its outgoing edges, exactly the quantity sum
of the rows its representative position matches at the next level (0 while
not yet expanded). -/
structure BInv (idx : LIndex) (root : String) (lvl : Nat) (st : BState) : Prop where
  pairEq : pairsOf st = keysOf st.edge_to_quantity
  nodupE : (keysOf st.edge_to_quantity).Nodup
  nodupP : (keysOf st.processed).Nodup
  lvlLt : ∀ e ∈ st.processed, e.2.2 < lvl
  notRoot : ∀ e ∈ st.processed, e.1 ≠ root
  edgeOwner : ∀ k ∈ keysOf st.edge_to_quantity,
    k.1 = root ∨ ∃ e ∈ st.processed, e.1 = k.1 ∧ e.2.2 + 1 < lvl
  sumOk : ∀ e ∈ st.processed,
    sumFor st.edge_to_quantity e.1
      = if e.2.2 + 1 < lvl
        then rowsQtySum ((rowsAtL idx (e.2.2 + 1)).filter
               (fun r => matchesParent e.2.1 r.item))
        else 0

example : convert_olg_code (some "OLG12-06-1001") = some "G12061001" := by decide
example : convert_olg_code (some "OLZ-03-058-032") = some "Z03058032" := by decide
example : convert_olg_code none = none := by decide
example : parse_hierarchy_level (some "1") = 0 := by decide
example : parse_hierarchy_level (some "1.0") = 0 := by decide
example : parse_hierarchy_level (some "1.1") = 1 := by decide
example : parse_hierarchy_level (some "1.1.1") = 2 := by decide
example : parse_hierarchy_level (some "abc") = -1 := by decide
example : parse_hierarchy_level (some "1 . 0") = 0 := by decide

/-- The two formulations of the OL-prefix condition agree on inputs of
length at least 3. -/
theorem olPrefixCond (s : List Char) (h : 3 ≤ s.length) :
    (['O', 'L'].isPrefixOf s ∧ 3 ≤ s.length ∧ (s.getD 2 'A').isAlpha)
      ↔ (s.take 2 = ['O', 'L'] ∧ ((s.drop 2).headD 'A').isAlpha) := by
  rcases s with _ | ⟨a, _ | ⟨b, _ | ⟨c, t⟩⟩⟩
  · simp at h
  · simp at h
  · simp at h
  · have h1 : (['O', 'L'].isPrefixOf (a :: b :: c :: t) = true) ↔ (a = 'O' ∧ b = 'L') := by
      show (('O' == a) && (('L' == b) && true)) = true ↔ _
      simp only [Bool.and_true, Bool.and_eq_true, beq_iff_eq]
      constructor
      · rintro ⟨x, y⟩; exact ⟨x.symm, y.symm⟩
      · rintro ⟨x, y⟩; exact ⟨x.symm, y.symm⟩
    have h2 : (a :: b :: c :: t).take 2 = ['O', 'L'] ↔ (a = 'O' ∧ b = 'L') := by
      simp [List.take]
    have h3 : (a :: b :: c :: t).getD 2 'A' = c := rfl
    have h4 : (((a :: b :: c :: t).drop 2).headD 'A') = c := rfl
    rw [h3, h4]
    constructor
    · rintro ⟨hp, -, hA⟩; exact ⟨h2.mpr (h1.mp hp), hA⟩
    · rintro ⟨ht, hA⟩; exact ⟨h1.mpr (h2.mp ht), h, hA⟩

theorem dashSpaceFun :
    (fun ch : Char => !(ch == '-' || ch == ' '))
      = (fun ch : Char => ch != '-' && ch != ' ') := by
  funext ch
  simp [Bool.not_or, bne]

theorem convertChars_eq_spec (s : List Char) : convertChars s = normalizeSpecChars s := by
  simp only [convertChars, normalizeSpecChars]
  by_cases h0 : s = []
  · simp [h0]
  · by_cases h1 : s.length < 3
    · simp [List.isEmpty_iff, h0, h1]
    · simp only [List.isEmpty_iff, h0, if_false, h1,
        olPrefixCond s (by omega), dashSpaceFun]

/-- C5: the Code Normalizer agrees everywhere with the specification
written from the claim (null on null or blank input, short input returned
stripped but unchanged, the two-letter prefix stripped exactly when
followed by an alphabetic character, dashes and spaces removed, empty
result mapped to null), and the claim example maps as stated. -/
theorem claim_C5_normalizer :
    (∀ o : Option String, convert_olg_code o = normalizeSpec o) ∧
    convert_olg_code (some "OLG12-06-1001") = some "G12061001" ∧
    convert_olg_code none = none := by
  refine ⟨?_, by decide, rfl⟩
  intro o
  cases o with
  | none => rfl
  | some raw => exact convertChars_eq_spec (stripL raw.toList)

theorem mem_keys_containsKey {κ α : Type} [DecidableEq κ] :
    ∀ (m : List (κ × α)) (k : κ), k ∈ keysOf m → containsKey m k = true := by
  intro m k
  induction m with
  | nil => intro h; simp [keysOf] at h
  | cons p rest ih =>
    obtain ⟨k1, v⟩ := p
    intro h
    by_cases hk : k1 = k
    · simp [containsKey, lookupK, hk]
    · have : k ∈ keysOf rest := by
        rcases (by simpa [keysOf] using h : k = k1 ∨ k ∈ keysOf rest) with h1 | h1
        · exact absurd h1.symm hk
        · exact h1
      simpa [containsKey, lookupK, hk] using ih this

theorem lookupK_addOcc {κ α : Type} [DecidableEq κ] :
    ∀ (m : List (κ × List α)) (k : κ) (a : α) (L : κ),
      (lookupK (addOcc m k a) L).getD []
        = if k = L then (lookupK m L).getD [] ++ [a]
          else (lookupK m L).getD [] := by
  intro m k a L
  induction m with
  | nil =>
    by_cases h : k = L <;> simp [addOcc, lookupK, h]
  | cons p rest ih =>
    obtain ⟨k1, l⟩ := p
    by_cases h1 : k1 = k
    · subst h1
      by_cases h2 : k1 = L <;> simp [addOcc, lookupK, h2]
    · by_cases h2 : k1 = L
      · subst h2
        have hkL : ¬ k = k1 := fun hh => h1 hh.symm
        simp [addOcc, lookupK, h1, hkL]
      · simp [addOcc, lookupK, h1, h2, ih]

theorem keysOf_addOcc {κ α : Type} [DecidableEq κ] :
    ∀ (m : List (κ × List α)) (k : κ) (a : α),
      keysOf (addOcc m k a)
        = if containsKey m k then keysOf m else keysOf m ++ [k] := by
  intro m k a
  induction m with
  | nil => simp [addOcc, keysOf, containsKey, lookupK]
  | cons p rest ih =>
    obtain ⟨k1, l⟩ := p
    by_cases h1 : k1 = k
    · simp [addOcc, keysOf, containsKey, lookupK, h1]
    · simp only [addOcc, h1, if_false, containsKey, lookupK]
      have : keysOf ((k1, l) :: addOcc rest k a) = k1 :: keysOf (addOcc rest k a) := rfl
      rw [this, ih]
      by_cases h2 : containsKey rest k = true <;>
        simp [containsKey, keysOf] at h2 ⊢ <;> simp [h2]

theorem nodup_keys_addOcc {κ α : Type} [DecidableEq κ]
    (m : List (κ × List α)) (k : κ) (a : α) (h : (keysOf m).Nodup) :
    (keysOf (addOcc m k a)).Nodup := by
  rw [keysOf_addOcc]
  cases hck : containsKey m k with
  | true => simpa using h
  | false =>
    have hnm : k ∉ keysOf m := fun hmem =>
      by rw [mem_keys_containsKey m k hmem] at hck; cases hck
    simp [List.nodup_append, h, hnm]

/-- Exactly one of the two per-row outcomes fires for each source row. -/
theorem exclOf_validOf_dichotomy (i : Nat) (r : SrcRow) :
    (exclOf i r).isSome ↔ validOf i r = none := by
  unfold exclOf validOf
  by_cases hc : caretHit r.drawing
  · simp [hc]
  · simp only [hc, if_false]
    cases hcode : convert_olg_code r.drawing with
    | none => simp
    | some code =>
      by_cases hlvl : parse_hierarchy_level (some (String.mk (stripL r.item.toList))) < 0 <;>
        simp [hlvl]

theorem outcome_length : ∀ l : List (Nat × SrcRow),
    (l.filterMap (fun p => exclOf p.1 p.2)).length
      + (l.filterMap (fun p => validOf p.1 p.2)).length = l.length := by
  intro l
  induction l with
  | nil => simp
  | cons p rest ih =>
    cases hE : exclOf p.1 p.2 with
    | none =>
      cases hV : validOf p.1 p.2 with
      | none =>
        have := (exclOf_validOf_dichotomy p.1 p.2).mpr hV
        rw [hE] at this
        cases this
      | some v => simp [List.filterMap_cons, hE, hV]; omega
    | some e =>
      have hV : validOf p.1 p.2 = none := by
        apply (exclOf_validOf_dichotomy p.1 p.2).mp
        rw [hE]; rfl
      simp [List.filterMap_cons, hE, hV]; omega

/-- Full characterisation of the classifier fold: exclusion records,
counters and level buckets accumulate exactly the per-row outcomes. -/
theorem process_rows_spec : ∀ (rows : List SrcRow) (i : Nat) (st : ClassState),
    (process_rows rows i st).exclusions
      = st.exclusions ++ (rows.enumFrom i).filterMap (fun p => exclOf p.1 p.2) ∧
    (process_rows rows i st).validCount
      = st.validCount + ((rows.enumFrom i).filterMap (fun p => validOf p.1 p.2)).length ∧
    (process_rows rows i st).caretCount + (process_rows rows i st).noCodeCount
        + (process_rows rows i st).invalidLevelCount
      = st.caretCount + st.noCodeCount + st.invalidLevelCount
        + ((rows.enumFrom i).filterMap (fun p => exclOf p.1 p.2)).length ∧
    (∀ L : Nat, (lookupK (process_rows rows i st).itemsByLevel L).getD []
      = (lookupK st.itemsByLevel L).getD []
        ++ ((rows.enumFrom i).filterMap (fun p => validOf p.1 p.2)).filterMap
             (fun q => if q.1 = L then some q.2 else none)) ∧
    ((keysOf st.itemsByLevel).Nodup →
      (keysOf (process_rows rows i st).itemsByLevel).Nodup) := by
  intro rows
  induction rows with
  | nil =>
    intro i st
    refine ⟨by simp [process_rows], by simp [process_rows], by simp [process_rows],
      fun L => by simp [process_rows], fun h => by simpa [process_rows] using h⟩
  | cons r rest ih =>
    intro i st
    by_cases hc : caretHit r.drawing
    · have hE : exclOf i r = some ⟨.caretInDrawing, i + 2,
          String.mk (stripL r.item.data), r.qtd, r.drawing, r.material⟩ := by
        simp [exclOf, hc]
      have hV : validOf i r = none := by simp [validOf, hc]
      have hstep : process_rows (r :: rest) i st = process_rows rest (i + 1)
          { st with
            exclusions := st.exclusions ++
              [⟨.caretInDrawing, i + 2, String.mk (stripL r.item.data),
                r.qtd, r.drawing, r.material⟩],
            caretCount := st.caretCount + 1 } := by
        simp [process_rows, hc]
      obtain ⟨e1, e2, e3, e4, e5⟩ := ih (i + 1)
        { st with
          exclusions := st.exclusions ++
            [⟨.caretInDrawing, i + 2, String.mk (stripL r.item.data),
              r.qtd, r.drawing, r.material⟩],
          caretCount := st.caretCount + 1 }
      refine ⟨?_, ?_, ?_, ?_, ?_⟩
      · rw [hstep, e1]; simp [List.enumFrom_cons, List.filterMap_cons, hE]
      · rw [hstep, e2]; simp [List.enumFrom_cons, List.filterMap_cons, hE, hV]
      · rw [hstep]; simp only [List.enumFrom_cons, List.filterMap_cons, hE] at e3 ⊢
        simp at e3 ⊢; omega
      · intro L; rw [hstep, e4 L]
        simp [List.enumFrom_cons, List.filterMap_cons, hE, hV]
      · intro h; rw [hstep]; exact e5 h
    · cases hcode : convert_olg_code r.drawing with
      | none =>
        have hE : exclOf i r = some ⟨.noConvertedCode, i + 2,
            String.mk (stripL r.item.data), r.qtd, r.drawing, r.material⟩ := by
          simp [exclOf, hc, hcode]
        have hV : validOf i r = none := by simp [validOf, hc, hcode]
        have hstep : process_rows (r :: rest) i st = process_rows rest (i + 1)
            { st with
              exclusions := st.exclusions ++
                [⟨.noConvertedCode, i + 2, String.mk (stripL r.item.data),
                  r.qtd, r.drawing, r.material⟩],
              noCodeCount := st.noCodeCount + 1 } := by
          simp [process_rows, hc, hcode]
        obtain ⟨e1, e2, e3, e4, e5⟩ := ih (i + 1)
          { st with
            exclusions := st.exclusions ++
              [⟨.noConvertedCode, i + 2, String.mk (stripL r.item.data),
                r.qtd, r.drawing, r.material⟩],
            noCodeCount := st.noCodeCount + 1 }
        refine ⟨?_, ?_, ?_, ?_, ?_⟩
        · rw [hstep, e1]; simp [List.enumFrom_cons, List.filterMap_cons, hE]
        · rw [hstep, e2]; simp [List.enumFrom_cons, List.filterMap_cons, hE, hV]
        · rw [hstep]; simp only [List.enumFrom_cons, List.filterMap_cons, hE] at e3 ⊢
          simp at e3 ⊢; omega
        · intro L; rw [hstep, e4 L]
          simp [List.enumFrom_cons, List.filterMap_cons, hE, hV]
        · intro h; rw [hstep]; exact e5 h
      | some code =>
        by_cases hlvl :
            parse_hierarchy_level (some (String.mk (stripL r.item.data))) < 0
        · have hE : exclOf i r = some ⟨.invalidLevel, i + 2,
              String.mk (stripL r.item.data), r.qtd, r.drawing, r.material⟩ := by
            simp [exclOf, hc, hcode, hlvl]
          have hV : validOf i r = none := by simp [validOf, hc, hcode, hlvl]
          have hstep : process_rows (r :: rest) i st = process_rows rest (i + 1)
              { st with
                exclusions := st.exclusions ++
                  [⟨.invalidLevel, i + 2, String.mk (stripL r.item.data),
                    r.qtd, r.drawing, r.material⟩],
                invalidLevelCount := st.invalidLevelCount + 1 } := by
            simp [process_rows, hc, hcode, hlvl]
          obtain ⟨e1, e2, e3, e4, e5⟩ := ih (i + 1)
            { st with
              exclusions := st.exclusions ++
                [⟨.invalidLevel, i + 2, String.mk (stripL r.item.data),
                  r.qtd, r.drawing, r.material⟩],
              invalidLevelCount := st.invalidLevelCount + 1 }
          refine ⟨?_, ?_, ?_, ?_, ?_⟩
          · rw [hstep, e1]; simp [List.enumFrom_cons, List.filterMap_cons, hE]
          · rw [hstep, e2]; simp [List.enumFrom_cons, List.filterMap_cons, hE, hV]
          · rw [hstep]; simp only [List.enumFrom_cons, List.filterMap_cons, hE] at e3 ⊢
            simp at e3 ⊢; omega
          · intro L; rw [hstep, e4 L]
            simp [List.enumFrom_cons, List.filterMap_cons, hE, hV]
          · intro h; rw [hstep]; exact e5 h
        · have hE : exclOf i r = none := by simp [exclOf, hc, hcode, hlvl]
          have hV : validOf i r = some
              ((parse_hierarchy_level (some (String.mk (stripL r.item.data)))).toNat,
               ⟨String.mk (stripL r.item.data), r.qtd, code, i⟩) := by
            simp [validOf, hc, hcode, hlvl]
          have hstep : process_rows (r :: rest) i st = process_rows rest (i + 1)
              { st with
                itemsByLevel := addOcc st.itemsByLevel
                  (parse_hierarchy_level
                    (some (String.mk (stripL r.item.data)))).toNat
                  ⟨String.mk (stripL r.item.data), r.qtd, code, i⟩,
                itemToCode := setKey st.itemToCode
                  (String.mk (stripL r.item.data)) code,
                validCount := st.validCount + 1 } := by
            simp [process_rows, hc, hcode, hlvl]
          obtain ⟨e1, e2, e3, e4, e5⟩ := ih (i + 1)
            { st with
              itemsByLevel := addOcc st.itemsByLevel
                (parse_hierarchy_level
                  (some (String.mk (stripL r.item.data)))).toNat
                ⟨String.mk (stripL r.item.data), r.qtd, code, i⟩,
              itemToCode := setKey st.itemToCode
                (String.mk (stripL r.item.data)) code,
              validCount := st.validCount + 1 }
          refine ⟨?_, ?_, ?_, ?_, ?_⟩
          · rw [hstep, e1]; simp [List.enumFrom_cons, List.filterMap_cons, hE]
          · rw [hstep, e2]; simp [List.enumFrom_cons, List.filterMap_cons, hE, hV]
            omega
          · rw [hstep]
            simp [List.enumFrom_cons, List.filterMap_cons, hE, e3]
          · intro L
            rw [hstep, e4 L]
            simp only [lookupK_addOcc]
            simp only [List.enumFrom_cons, List.filterMap_cons, hV,
              Option.some.injEq]
            by_cases hL :
                (parse_hierarchy_level
                  (some (String.mk (stripL r.item.data)))).toNat = L <;>
              simp [hL, List.append_assoc]
          · intro h
            rw [hstep]
            exact e5 (nodup_keys_addOcc st.itemsByLevel _ _ h)

/-- C6: the classifier stats satisfy total = valid + excluded exactly;
the exclusion list is exactly one record per excluded row, produced by the
short-circuit checks caret, then missing code, then invalid level, and
carrying line number index + 2; every valid row lands in exactly the
bucket of its level, the bucket keys are duplicate-free, and the two
per-row outcomes are mutually exclusive and exhaustive. -/
theorem claim_C6_classifier :
    ∀ df : List SrcRow,
      (process_excel_data df).stats.total_rows = df.length ∧
      (process_excel_data df).stats.total_rows
        = (process_excel_data df).stats.valid_rows
          + (process_excel_data df).stats.excluded_rows ∧
      (process_excel_data df).exclusions
        = (df.enumFrom 0).filterMap (fun p => exclOf p.1 p.2) ∧
      (process_excel_data df).stats.excluded_rows
        = (process_excel_data df).exclusions.length ∧
      (process_excel_data df).stats.valid_rows
        = ((df.enumFrom 0).filterMap (fun p => validOf p.1 p.2)).length ∧
      (∀ L : Nat, rowsAtL (process_excel_data df).itemsByLevel L
        = ((df.enumFrom 0).filterMap (fun p => validOf p.1 p.2)).filterMap
            (fun q => if q.1 = L then some q.2 else none)) ∧
      (keysOf (process_excel_data df).itemsByLevel).Nodup ∧
      (∀ (i : Nat) (r : SrcRow), (exclOf i r).isSome ↔ validOf i r = none) := by
  intro df
  obtain ⟨e1, e2, e3, e4, e5⟩ := process_rows_spec df 0 ⟨[], [], [], 0, 0, 0, 0⟩
  have hcnt := outcome_length (df.enumFrom 0)
  refine ⟨rfl, ?_, ?_, ?_, ?_, ?_, ?_, exclOf_validOf_dichotomy⟩
  · have h2 : (process_excel_data df).stats.valid_rows
        = ((df.enumFrom 0).filterMap (fun p => validOf p.1 p.2)).length := by
      simpa [process_excel_data] using e2
    have h3 : (process_excel_data df).stats.excluded_rows
        = ((df.enumFrom 0).filterMap (fun p => exclOf p.1 p.2)).length := by
      simpa [process_excel_data] using e3
    have h1 : (process_excel_data df).stats.total_rows = df.length := rfl
    have hlen : (df.enumFrom 0).length = df.length := by simp
    omega
  · simpa [process_excel_data] using e1
  · simp only [process_excel_data]
    simp only [e1, e3]
    simp
  · simpa [process_excel_data] using e2
  · intro L
    simpa [process_excel_data, rowsAtL] using e4 L
  · simpa [process_excel_data] using e5 (by simp [keysOf])

/-- C3: classifying the two duplicate top-level rows of Scenario B and
building with root code ROOT yields exactly one edge (ROOT, G12061001)
with aggregated quantity 5, exactly two DuplicateRecords ranked 1 of 2 and
2 of 2 carrying source lines 2 and 3, and exactly one ConsolidationRecord
reporting 2 occurrences and final quantity 5. -/
theorem claim_C3_scenarioB :
    (build_parent_child_relationships (process_excel_data dfScenarioB).itemsByLevel
        "ROOT").output_rows = [⟨"001", "ROOT", "G12061001", 5, 0⟩] ∧
    (build_parent_child_relationships (process_excel_data dfScenarioB).itemsByLevel
        "ROOT").edge_to_quantity = [(("ROOT", "G12061001"), 5)] ∧
    (build_parent_child_relationships (process_excel_data dfScenarioB).itemsByLevel
        "ROOT").duplicate_records =
      [⟨1, 2, 5, 2, "1", some 2, "G12061001"⟩,
       ⟨2, 2, 5, 3, "2", some 3, "G12061001"⟩] ∧
    (build_parent_child_relationships (process_excel_data dfScenarioB).itemsByLevel
        "ROOT").consolidated_relationships = [⟨"ROOT", 5, "G12061001", 2⟩] := by
  decide

/-- C10: on the orphan input both rows are classified valid, yet the
level-2 row (code B22) appears in no output row, no edge, no duplicate or
consolidation record, and no exclusion record, so the valid-row count 2
exceeds the single row represented in the output. -/
theorem claim_C10_orphan_drop :
    (process_excel_data dfOrphan).stats.valid_rows = 2 ∧
    (⟨"1.1.1", some 1, "B22", 1⟩ : Row) ∈ rowsAtL idxOrphan 2 ∧
    (process_excel_data dfOrphan).exclusions = [] ∧
    (build_parent_child_relationships idxOrphan "ROOT").duplicate_records = [] ∧
    (build_parent_child_relationships idxOrphan "ROOT").consolidated_relationships
      = [] ∧
    (∀ r ∈ (build_parent_child_relationships idxOrphan "ROOT").output_rows,
      r.mtg ≠ "B22" ∧ r.cod ≠ "B22") ∧
    (∀ e ∈ (build_parent_child_relationships idxOrphan "ROOT").edge_to_quantity,
      e.1.1 ≠ "B22" ∧ e.1.2 ≠ "B22") ∧
    (build_parent_child_relationships idxOrphan "ROOT").output_rows.length = 1 := by
  decide

/-- C1 counterexample: on the classified root-collision input the builder
emits three output rows but only two distinct (parent, child) pairs, the
emitted pair list is not duplicate-free, and the Verifier count check
fails. -/
theorem claim_C1_counterexample :
    verifyCount (build_parent_child_relationships idxCollide "ROOT") = false ∧
    (build_parent_child_relationships idxCollide "ROOT").output_rows.length = 3 ∧
    (build_parent_child_relationships idxCollide "ROOT").edge_to_quantity.length
      = 2 ∧
    ¬ (pairsOf (build_parent_child_relationships idxCollide "ROOT")).Nodup := by
  decide

/-- C2 counterexample: on the classified root-collision input the parent
code ROOT is registered at depth 0 with representative position 1, its
outgoing edges sum to 3, yet the level-1 rows matching its representative
position sum to 1. -/
theorem claim_C2_counterexample :
    ("ROOT", ("1", 0)) ∈ (build_parent_child_relationships idxCollide
      "ROOT").processed ∧
    sumFor (build_parent_child_relationships idxCollide "ROOT").edge_to_quantity
      "ROOT" = 3 ∧
    rowsQtySum ((rowsAtL idxCollide 1).filter
      (fun r => matchesParent "1" r.item)) = 1 := by
  decide

/-- The level parser computes the claim level value exactly on inputs
satisfying the amended validity condition, and the invalid sentinel
otherwise. -/
theorem parseLevelChars_ok (s : List Char) :
    (LevelInputOK s → parseLevelChars s = levelOKValue s) ∧
    (¬ LevelInputOK s → parseLevelChars s = -1) := by
  by_cases h0 : s = []
  · constructor
    · intro hOK; exact absurd h0 hOK.1
    · intro hx; simp [parseLevelChars, h0]
  · have e0 : s.isEmpty = false := by simp [List.isEmpty_iff, h0]
    by_cases hA : (s.all fun c => c.isDigit || c == '.' || c.isWhitespace) = true
    · by_cases hS : ((splitDots s).any (fun p =>
          let pc := stripL p
          !pc.isEmpty && !(pc.all Char.isDigit))) = true
      · constructor
        · intro hOK
          exfalso
          rw [List.any_eq_true] at hS
          obtain ⟨p, hp, hbad⟩ := hS
          simp only [Bool.and_eq_true, Bool.not_eq_true', List.isEmpty_eq_false] at hbad
          obtain ⟨hb1, hb2⟩ := hbad
          have hall : (stripL p).all Char.isDigit = true := by
            rw [List.all_eq_true]
            intro c hc
            exact hOK.2.2 p hp hb1 c hc
          rw [hall] at hb2
          cases hb2
        · intro hx
          simp [parseLevelChars, e0, hA, hS]
      · have hS0 : ((splitDots s).any (fun p =>
            let pc := stripL p
            !pc.isEmpty && !(pc.all Char.isDigit))) = false := by
          cases hval : ((splitDots s).any (fun p =>
              let pc := stripL p
              !pc.isEmpty && !(pc.all Char.isDigit))) with
          | true => exact absurd hval hS
          | false => rfl
        have hmain : parseLevelChars s = levelOKValue s := by
          simp [parseLevelChars, levelOKValue, e0, hA, hS0, Bool.and_eq_true,
            beq_iff_eq]
        constructor
        · intro hOK; exact hmain
        · intro hBad
          exfalso
          apply hBad
          refine ⟨h0, ?_, ?_⟩
          · intro c hc
            have hb := List.all_eq_true.mp hA c hc
            simp only [Bool.or_eq_true, beq_iff_eq] at hb
            exact hb
          · intro p hp hne c hc
            have hgp : (!(stripL p).isEmpty && !((stripL p).all Char.isDigit)) = false := by
              cases hval : (!(stripL p).isEmpty && !((stripL p).all Char.isDigit)) with
              | true =>
                exfalso
                apply hS
                rw [List.any_eq_true]
                exact ⟨p, hp, hval⟩
              | false => rfl
            have hne2 : (!(stripL p).isEmpty) = true := by
              simp [List.isEmpty_iff, hne]
            rw [hne2, Bool.true_and] at hgp
            have hall : (stripL p).all Char.isDigit = true := by
              cases hv : (stripL p).all Char.isDigit with
              | true => rfl
              | false => rw [hv] at hgp; cases hgp
            exact List.all_eq_true.mp hall c hc
    · have hA0 : (s.all fun c => c.isDigit || c == '.' || c.isWhitespace) = false := by
        cases hval : (s.all fun c => c.isDigit || c == '.' || c.isWhitespace) with
        | true => exact absurd hval hA
        | false => rfl
      constructor
      · intro hOK
        exfalso
        apply hA
        rw [List.all_eq_true]
        intro c hc
        have hb := hOK.2.1 c hc
        simp only [Bool.or_eq_true, beq_iff_eq]
        exact hb
      · intro hx
        simp [parseLevelChars, e0, hA0]

/-- C4 (amended): null or blank input gives -1; for every input string,
when the stripped character list is non-empty, contains only digits, dots
and whitespace, and every dot-separated segment that is non-empty after
trimming is all digits, the parser returns 0 for one segment, 0 for two
segments whose second trims to zero, and the dot count otherwise; every
other input gives -1. The only amendment against the claim text is that
segments are trimmed before the all-digits test. -/
theorem claim_C4_amended_rule :
    parse_hierarchy_level none = -1 ∧
    ∀ raw : String,
      (LevelInputOK (stripL raw.toList) →
        parse_hierarchy_level (some raw) = levelOKValue (stripL raw.toList)) ∧
      (¬ LevelInputOK (stripL raw.toList) → parse_hierarchy_level (some raw) = -1) :=
  ⟨rfl, fun raw => parseLevelChars_ok (stripL raw.toList)⟩

/-- Witness for C4 at the inputs 1.1 (valid, level 1) and 1abc
(invalid). -/
theorem claim_C4_witness :
    parse_hierarchy_level (some "1.1") = 1 ∧
    parse_hierarchy_level (some "1abc") = -1 := by
  constructor
  · exact ((claim_C4_amended_rule.2 "1.1").1 (by decide)).trans (by decide)
  · exact (claim_C4_amended_rule.2 "1abc").2 (by decide)

/-- C4 counterexample: the input 1-space-dot-space-0 consists only of
digits, dots and whitespace and has a non-empty dot-separated segment that
is not all digits, so the claim as stated demands the invalid sentinel -1,
but the parser trims each segment before the digit check and returns 0. -/
theorem claim_C4_counterexample :
    parse_hierarchy_level (some "1 . 0") = 0 ∧
    levelSpecLiteral (some "1 . 0") = -1 ∧
    (∃ p ∈ splitDots (stripL (String.toList "1 . 0")),
      p ≠ [] ∧ ¬ (∀ c ∈ p, c.isDigit = true)) := by
  decide

/-- C9 counterexample: the conversion of an empty table reports a failure,
because the dataframe structure validation rejects an empty file before
the builder or the Verifier ever run. -/
theorem claim_C9_counterexample :
    convertCore [] "ROOT" = .error .structureInvalid := rfl

/-- C9 (amended): zero source rows classify to zero exclusions, the
builder emits zero edges, and the Verifier comparison holds trivially with
0 equal to 0; the conversion itself nevertheless reports a validation
failure on the empty table before reaching the builder. -/
theorem claim_C9_amended :
    (process_excel_data []).exclusions = [] ∧
    (process_excel_data []).stats.total_rows = 0 ∧
    (process_excel_data []).stats.valid_rows = 0 ∧
    ∀ root : String,
      build_parent_child_relationships [] root = initState ∧
      verifyCount (build_parent_child_relationships [] root) = true ∧
      convertCore [] root = .error .structureInvalid := by
  refine ⟨rfl, rfl, rfl, fun root => ⟨rfl, rfl, rfl⟩⟩

theorem containsKey_mem_keys {κ α : Type} [DecidableEq κ] :
    ∀ (m : List (κ × α)) (k : κ), containsKey m k = true → k ∈ keysOf m := by
  intro m k
  induction m with
  | nil => intro h; simp [containsKey, lookupK] at h
  | cons p rest ih =>
    obtain ⟨k1, v⟩ := p
    intro h
    by_cases hk : k1 = k
    · simp [keysOf, hk]
    · have hr : containsKey rest k = true := by
        simpa [containsKey, lookupK, hk] using h
      simpa [keysOf] using Or.inr (ih hr)

theorem le_foldlMax : ∀ (idx : LIndex) (acc : Nat),
    acc ≤ idx.foldl (fun m p => max m p.1) acc := by
  intro idx
  induction idx with
  | nil => intro acc; exact Nat.le_refl acc
  | cons p rest ih =>
    intro acc
    exact Nat.le_trans (Nat.le_max_left acc p.1) (ih (max acc p.1))

theorem key_le_foldlMax : ∀ (idx : LIndex) (k : Nat), k ∈ keysOf idx →
    ∀ acc : Nat, k ≤ idx.foldl (fun m p => max m p.1) acc := by
  intro idx
  induction idx with
  | nil => intro k hk; simp [keysOf] at hk
  | cons p rest ih =>
    intro k hk acc
    rcases (by simpa [keysOf] using hk : k = p.1 ∨ k ∈ keysOf rest) with h | h
    · rw [h]
      exact Nat.le_trans (Nat.le_max_right acc p.1) (le_foldlMax rest (max acc p.1))
    · exact ih k h (max acc p.1)

theorem containsKey_le_maxKey (idx : LIndex) (k : Nat)
    (h : containsKey idx k = true) : k ≤ maxKey idx :=
  key_le_foldlMax idx k (containsKey_mem_keys idx k h) 0

theorem loopCond_false_of_gt (idx : LIndex) (st : BState) (lvl : Nat)
    (h : maxKey idx < lvl) : loopCond idx st lvl = false := by
  cases hck : containsKey idx lvl with
  | false => simp [loopCond, hck]
  | true =>
    exact absurd (containsKey_le_maxKey idx lvl hck) (by omega)

theorem buildLoop_stuck (idx : LIndex) (st : BState) (lvl : Nat)
    (h : loopCond idx st lvl = false) :
    ∀ f : Nat, buildLoop idx f st lvl = (st, lvl) := by
  intro f
  cases f with
  | zero => rfl
  | succ f => simp [buildLoop, h]

theorem buildLoop_exit_cond (idx : LIndex) :
    ∀ (fuel : Nat) (st : BState) (lvl : Nat), maxKey idx < lvl + fuel →
      loopCond idx (buildLoop idx fuel st lvl).1 (buildLoop idx fuel st lvl).2
        = false := by
  intro fuel
  induction fuel with
  | zero =>
    intro st lvl h
    exact loopCond_false_of_gt idx st lvl (by omega)
  | succ fuel ih =>
    intro st lvl h
    cases hc : loopCond idx st lvl with
    | true =>
      simp only [buildLoop, hc, if_true]
      exact ih (levelPass idx lvl st) (lvl + 1) (by omega)
    | false =>
      simp [buildLoop, hc]

theorem buildLoop_fuel_stable (idx : LIndex) :
    ∀ (fuel m : Nat) (st : BState) (lvl : Nat), maxKey idx < lvl + fuel →
      buildLoop idx (fuel + m) st lvl = buildLoop idx fuel st lvl := by
  intro fuel
  induction fuel with
  | zero =>
    intro m st lvl h
    rw [Nat.zero_add]
    exact buildLoop_stuck idx st lvl (loopCond_false_of_gt idx st lvl (by omega)) m
  | succ fuel ih =>
    intro m st lvl h
    have heq : fuel + 1 + m = (fuel + m) + 1 := by omega
    rw [heq]
    cases hc : loopCond idx st lvl with
    | true =>
      simp only [buildLoop, hc, if_true]
      exact ih m (levelPass idx lvl st) (lvl + 1) (by omega)
    | false =>
      simp [buildLoop, hc]

theorem buildLoop_first (idx : LIndex) :
    ∀ (fuel : Nat) (st : BState) (lvl j : Nat), lvl ≤ j →
      j < (buildLoop idx fuel st lvl).2 →
      (buildLoop idx (j - lvl) st lvl).2 = j ∧
        loopCond idx (buildLoop idx (j - lvl) st lvl).1 j = true := by
  intro fuel
  induction fuel with
  | zero =>
    intro st lvl j hj1 hj2
    exact absurd hj2 (by simp [buildLoop]; omega)
  | succ fuel ih =>
    intro st lvl j hj1 hj2
    cases hc : loopCond idx st lvl with
    | false =>
      rw [buildLoop_stuck idx st lvl hc] at hj2
      exact absurd hj2 (by omega)
    | true =>
      rcases Nat.eq_or_lt_of_le hj1 with heq | hlt
      · subst heq
        rw [Nat.sub_self]
        exact ⟨rfl, hc⟩
      · have hrw : buildLoop idx (fuel + 1) st lvl
            = buildLoop idx fuel (levelPass idx lvl st) (lvl + 1) := by
          simp [buildLoop, hc]
        rw [hrw] at hj2
        have hmain := ih (levelPass idx lvl st) (lvl + 1) j hlt hj2
        have hsub : j - lvl = (j - (lvl + 1)) + 1 := by omega
        rw [hsub]
        simpa [buildLoop, hc] using hmain

/-- C8: with the fuel chosen by the builder the level loop has fully
terminated (extra fuel does not change the result), the loop stops at a
level with no rows or with no parent registered at the previous depth, and
every level strictly before the stopping one satisfied the loop condition
in the state that then held, so the stopping level is the first failing
one. -/
theorem claim_C8_termination :
    ∀ (idx : LIndex) (root : String),
      (∀ m : Nat, buildLoop idx (maxKey idx + 1 + m) (level0Pass idx root) 1
          = buildLoop idx (maxKey idx + 1) (level0Pass idx root) 1) ∧
      (containsKey idx (buildLoop idx (maxKey idx + 1) (level0Pass idx root) 1).2
          = false ∨
        ((buildLoop idx (maxKey idx + 1) (level0Pass idx root) 1).1.processed.any
          (fun p =>
            p.2.2 == (buildLoop idx (maxKey idx + 1) (level0Pass idx root) 1).2 - 1))
          = false) ∧
      (∀ j, 1 ≤ j → j < (buildLoop idx (maxKey idx + 1) (level0Pass idx root) 1).2 →
        loopCond idx (buildLoop idx (j - 1) (level0Pass idx root) 1).1 j = true) ∧
      build_parent_child_relationships idx root
        = (buildLoop idx (maxKey idx + 1) (level0Pass idx root) 1).1 := by
  intro idx root
  refine ⟨?_, ?_, ?_, rfl⟩
  · intro m
    exact buildLoop_fuel_stable idx (maxKey idx + 1) m (level0Pass idx root) 1
      (by omega)
  · have h := buildLoop_exit_cond idx (maxKey idx + 1) (level0Pass idx root) 1
      (by omega)
    cases hck : containsKey idx
        (buildLoop idx (maxKey idx + 1) (level0Pass idx root) 1).2 with
    | false => exact Or.inl rfl
    | true =>
      right
      rw [loopCond, hck, Bool.true_and] at h
      exact h
  · intro j hj1 hj2
    exact (buildLoop_first idx (maxKey idx + 1) (level0Pass idx root) 1 j hj1 hj2).2

/-- Witness for C8 at the Scenario A input: the loop condition holds at
level 1 in the state after the level-0 pass. -/
theorem claim_C8_witness :
    loopCond idxScenarioA
      (buildLoop idxScenarioA 0 (level0Pass idxScenarioA "ROOT") 1).1 1 = true :=
  (claim_C8_termination idxScenarioA "ROOT").2.2.1 1 (by decide) (by decide)

/-- C7: the Relationship Builder is a pure function of the leveled index
and the root code: two invocations on equal inputs return identical
states, in particular identical output rows, edge maps, duplicate records
and consolidation records. -/
theorem claim_C7_deterministic :
    ∀ (idx1 idx2 : LIndex) (r1 r2 : String), idx1 = idx2 → r1 = r2 →
      build_parent_child_relationships idx1 r1
        = build_parent_child_relationships idx2 r2 ∧
      (build_parent_child_relationships idx1 r1).output_rows
        = (build_parent_child_relationships idx2 r2).output_rows ∧
      (build_parent_child_relationships idx1 r1).edge_to_quantity
        = (build_parent_child_relationships idx2 r2).edge_to_quantity ∧
      (build_parent_child_relationships idx1 r1).duplicate_records
        = (build_parent_child_relationships idx2 r2).duplicate_records ∧
      (build_parent_child_relationships idx1 r1).consolidated_relationships
        = (build_parent_child_relationships idx2 r2).consolidated_relationships := by
  rintro idx1 idx2 r1 r2 rfl rfl
  exact ⟨rfl, rfl, rfl, rfl, rfl⟩

/-- Witness for C7 at the Scenario A input. -/
theorem claim_C7_witness :
    build_parent_child_relationships idxScenarioA "ROOT"
      = build_parent_child_relationships idxScenarioA "ROOT" :=
  (claim_C7_deterministic idxScenarioA idxScenarioA "ROOT" "ROOT" rfl rfl).1

theorem lookupK_some_mem {κ α : Type} [DecidableEq κ] :
    ∀ (m : List (κ × α)) (k : κ) (v : α), lookupK m k = some v → (k, v) ∈ m := by
  intro m k v
  induction m with
  | nil => intro h; simp [lookupK] at h
  | cons p rest ih =>
    obtain ⟨k1, v1⟩ := p
    intro h
    by_cases hk : k1 = k
    · subst hk
      have h2 : v1 = v := by simpa [lookupK] using h
      subst h2
      exact List.mem_cons_self _ _
    · simp only [lookupK, hk, if_false] at h
      exact List.mem_cons_of_mem _ (ih h)

theorem keysOf_cons {κ α : Type} (p : κ × α) (m : List (κ × α)) :
    keysOf (p :: m) = p.1 :: keysOf m := rfl

theorem keysOf_append {κ α : Type} (m n : List (κ × α)) :
    keysOf (m ++ n) = keysOf m ++ keysOf n := by
  simp [keysOf]

theorem addTo_of_not_mem {κ : Type} [DecidableEq κ] :
    ∀ (m : List (κ × Qty)) (k : κ) (q : Qty), k ∉ keysOf m →
      addTo m k q = m ++ [(k, q)] := by
  intro m k q
  induction m with
  | nil => intro h; rfl
  | cons p rest ih =>
    obtain ⟨k1, v1⟩ := p
    intro h
    have h2 : k ∉ keysOf rest := fun hm => h (List.mem_cons_of_mem _ hm)
    have hk : k1 ≠ k := fun hh => h (by rw [keysOf_cons, hh]; exact List.mem_cons_self _ _)
    simp [addTo, hk, ih h2]

theorem setKey_of_not_mem {κ α : Type} [DecidableEq κ] :
    ∀ (m : List (κ × α)) (k : κ) (v : α), k ∉ keysOf m →
      setKey m k v = m ++ [(k, v)] := by
  intro m k v
  induction m with
  | nil => intro h; rfl
  | cons p rest ih =>
    obtain ⟨k1, v1⟩ := p
    intro h
    have h2 : k ∉ keysOf rest := fun hm => h (List.mem_cons_of_mem _ hm)
    have hk : k1 ≠ k := fun hh => h (by rw [keysOf_cons, hh]; exact List.mem_cons_self _ _)
    simp [setKey, hk, ih h2]

theorem keysOf_addTo {κ : Type} [DecidableEq κ] :
    ∀ (m : List (κ × Qty)) (k : κ) (q : Qty),
      keysOf (addTo m k q) = if k ∈ keysOf m then keysOf m else keysOf m ++ [k] := by
  intro m k q
  induction m with
  | nil => simp [addTo, keysOf]
  | cons p rest ih =>
    obtain ⟨k1, v1⟩ := p
    by_cases hk : k1 = k
    · subst hk
      simp [addTo, keysOf_cons]
    · rw [addTo]
      simp only [hk, if_false]
      rw [keysOf_cons, keysOf_cons, ih]
      have hne : k ≠ k1 := fun hh => hk hh.symm
      by_cases h2 : k ∈ keysOf rest
      · simp [List.mem_cons, hne, h2]
      · simp [List.mem_cons, hne, h2]

theorem nodup_keys_addTo {κ : Type} [DecidableEq κ]
    (m : List (κ × Qty)) (k : κ) (q : Qty) (h : (keysOf m).Nodup) :
    (keysOf (addTo m k q)).Nodup := by
  rw [keysOf_addTo]
  by_cases h2 : k ∈ keysOf m
  · simpa [h2] using h
  · simp [h2, List.nodup_append, h]

theorem sumQ_cons {κ : Type} (p : κ × Qty) (m : List (κ × Qty)) :
    sumQ (p :: m) = p.2 + sumQ m := by
  simp [sumQ]

theorem sumQ_append {κ : Type} (m n : List (κ × Qty)) :
    sumQ (m ++ n) = sumQ m + sumQ n := by
  simp [sumQ]

theorem sumQ_addTo {κ : Type} [DecidableEq κ] :
    ∀ (m : List (κ × Qty)) (k : κ) (q : Qty), sumQ (addTo m k q) = sumQ m + q := by
  intro m k q
  induction m with
  | nil => simp [addTo, sumQ]
  | cons p rest ih =>
    obtain ⟨k1, v1⟩ := p
    by_cases hk : k1 = k
    · subst hk
      have h1 : addTo ((k1, v1) :: rest) k1 q = (k1, v1 + q) :: rest := by
        simp [addTo]
      rw [h1, sumQ_cons, sumQ_cons]
      show v1 + q + sumQ rest = v1 + sumQ rest + q
      ring
    · have h1 : addTo ((k1, v1) :: rest) k q = (k1, v1) :: addTo rest k q := by
        simp [addTo, hk]
      rw [h1, sumQ_cons, sumQ_cons, ih]
      show v1 + (sumQ rest + q) = v1 + sumQ rest + q
      ring

theorem agg_foldl_facts : ∀ (rows : List Row) (a : Agg),
    ((keysOf a.agg).Nodup → (keysOf ((rows.foldl aggStep a).agg)).Nodup) ∧
    sumQ ((rows.foldl aggStep a).agg) = sumQ a.agg + rowsQtySum rows ∧
    (∀ c ∈ keysOf ((rows.foldl aggStep a).agg),
      c ∈ keysOf a.agg ∨ c ∈ rows.map Row.code) := by
  intro rows
  induction rows with
  | nil =>
    intro a
    exact ⟨fun h => h, by simp [rowsQtySum], fun c hc => Or.inl hc⟩
  | cons r rest ih =>
    intro a
    have hstep : (r :: rest).foldl aggStep a = rest.foldl aggStep (aggStep a r) := rfl
    obtain ⟨i1, i2, i3⟩ := ih (aggStep a r)
    have hagg : (aggStep a r).agg = addTo a.agg r.code (r.qty.getD 0) := rfl
    refine ⟨?_, ?_, ?_⟩
    · intro h
      rw [hstep]
      exact i1 (by rw [hagg]; exact nodup_keys_addTo _ _ _ h)
    · rw [hstep, i2, hagg, sumQ_addTo]
      have h1 : rowsQtySum (r :: rest) = r.qty.getD 0 + rowsQtySum rest := by
        simp [rowsQtySum]
      rw [h1]
      ring
    · intro c hc
      rw [hstep] at hc
      rcases i3 c hc with h | h
      · rw [hagg, keysOf_addTo] at h
        by_cases h2 : r.code ∈ keysOf a.agg
        · rw [if_pos h2] at h
          exact Or.inl h
        · rw [if_neg h2] at h
          rcases List.mem_append.mp h with h3 | h3
          · exact Or.inl h3
          · simp at h3
            subst h3
            exact Or.inr (by simp)
      · exact Or.inr (by simp [h])

theorem aggRows_keys_nodup (rows : List Row) : (keysOf (aggRows rows).agg).Nodup :=
  (agg_foldl_facts rows ⟨[], [], []⟩).1 (by simp [keysOf])

theorem aggRows_sum (rows : List Row) : sumQ (aggRows rows).agg = rowsQtySum rows := by
  have h := (agg_foldl_facts rows ⟨[], [], []⟩).2.1
  simpa [aggRows, sumQ] using h

theorem aggRows_keys_sub (rows : List Row) :
    ∀ c ∈ keysOf (aggRows rows).agg, c ∈ rows.map Row.code := by
  intro c hc
  rcases (agg_foldl_facts rows ⟨[], [], []⟩).2.2 c hc with h | h
  · simp [keysOf] at h
  · exact h

theorem childAgg_keys_nodup (lvRows : List Row) (pitem : String) :
    (keysOf (childAgg lvRows pitem)).Nodup :=
  aggRows_keys_nodup _

theorem childAgg_sum (lvRows : List Row) (pitem : String) :
    sumQ (childAgg lvRows pitem)
      = rowsQtySum (lvRows.filter (fun r => matchesParent pitem r.item)) :=
  aggRows_sum _

theorem childAgg_keys_sub (lvRows : List Row) (pitem : String) :
    ∀ c ∈ keysOf (childAgg lvRows pitem), c ∈ lvRows.map Row.code := by
  intro c hc
  have h := aggRows_keys_sub _ c hc
  rcases List.mem_map.mp h with ⟨r, hr, hcode⟩
  exact List.mem_map.mpr ⟨r, (List.mem_filter.mp hr).1, hcode⟩

/-- Effect of the level-0 emission loop when every emitted pair and parent
code is fresh: edges, rows and parent registrations are appended in
lockstep, one per aggregate entry. -/
theorem emitL0_fold : ∀ (l : List (String × Qty)) (root : String) (a : Agg)
    (st : BState),
    (keysOf l).Nodup →
    (∀ c ∈ keysOf l, (root, c) ∉ keysOf st.edge_to_quantity) →
    (∀ c ∈ keysOf l, c ∉ keysOf st.processed) →
    (l.foldl (emitL0Body root a) st).edge_to_quantity
        = st.edge_to_quantity ++ l.map (fun p => ((root, p.1), p.2)) ∧
    (l.foldl (emitL0Body root a) st).output_rows
        = st.output_rows ++ l.map (fun p => (⟨"001", root, p.1, p.2, 0⟩ : OutRow)) ∧
    (l.foldl (emitL0Body root a) st).processed
        = st.processed ++ l.map (fun p => (p.1, ((lookupK a.rep p.1).getD "", 0))) := by
  intro l
  induction l with
  | nil => intro root a st h1 h2 h3; simp
  | cons p rest ih =>
    intro root a st h1 h2 h3
    have hhead : p.1 ∉ keysOf rest := by
      have := h1
      rw [keysOf_cons] at this
      exact (List.nodup_cons.mp this).1
    have htail : (keysOf rest).Nodup := by
      have := h1
      rw [keysOf_cons] at this
      exact (List.nodup_cons.mp this).2
    have hfreshE : (root, p.1) ∉ keysOf st.edge_to_quantity :=
      h2 p.1 (by rw [keysOf_cons]; exact List.mem_cons_self _ _)
    have hfreshP : p.1 ∉ keysOf st.processed :=
      h3 p.1 (by rw [keysOf_cons]; exact List.mem_cons_self _ _)
    have hedge : (emitL0Body root a st p).edge_to_quantity
        = st.edge_to_quantity ++ [((root, p.1), p.2)] :=
      addTo_of_not_mem _ _ _ hfreshE
    have hrows : (emitL0Body root a st p).output_rows
        = st.output_rows ++ [(⟨"001", root, p.1, p.2, 0⟩ : OutRow)] := rfl
    have hproc : (emitL0Body root a st p).processed
        = st.processed ++ [(p.1, ((lookupK a.rep p.1).getD "", 0))] :=
      setKey_of_not_mem _ _ _ hfreshP
    have ihm := ih root a (emitL0Body root a st p) htail
      (by
        intro c hc
        rw [hedge, keysOf_append]
        intro hmem
        rcases List.mem_append.mp hmem with hm | hm
        · exact h2 c (by rw [keysOf_cons]; exact List.mem_cons_of_mem _ hc) hm
        · have : c = p.1 := by
            simp [keysOf] at hm
            exact hm
          exact hhead (this ▸ hc))
      (by
        intro c hc
        rw [hproc, keysOf_append]
        intro hmem
        rcases List.mem_append.mp hmem with hm | hm
        · exact h3 c (by rw [keysOf_cons]; exact List.mem_cons_of_mem _ hc) hm
        · have : c = p.1 := by simpa [keysOf] using hm
          exact hhead (this ▸ hc))
    have hfold : (p :: rest).foldl (emitL0Body root a) st
        = rest.foldl (emitL0Body root a) (emitL0Body root a st p) := rfl
    obtain ⟨j1, j2, j3⟩ := ihm
    refine ⟨?_, ?_, ?_⟩
    · rw [hfold, j1, hedge, List.map_cons, List.append_assoc, List.singleton_append]
    · rw [hfold, j2, hrows, List.map_cons, List.append_assoc, List.singleton_append]
    · rw [hfold, j3, hproc, List.map_cons, List.append_assoc, List.singleton_append]

/-- Effect of one parent emission loop when every emitted pair is fresh:
edges and rows are appended in lockstep; registrations are untouched; the
next-level additions grow only by fresh codes from the aggregate at the
current level. -/
theorem parent_fold : ∀ (l : List (String × Qty)) (a : Agg) (pc : String)
    (lvl : Nat) (st : BState) (adds : Adds),
    (keysOf l).Nodup →
    (∀ c ∈ keysOf l, (pc, c) ∉ keysOf st.edge_to_quantity) →
    (l.foldl (parentBody a pc lvl) (st, adds)).1.edge_to_quantity
        = st.edge_to_quantity ++ l.map (fun p => ((pc, p.1), p.2)) ∧
    (l.foldl (parentBody a pc lvl) (st, adds)).1.output_rows
        = st.output_rows ++ l.map (fun p => (⟨"001", pc, p.1, p.2, 0⟩ : OutRow)) ∧
    (l.foldl (parentBody a pc lvl) (st, adds)).1.processed = st.processed ∧
    (∀ x ∈ (l.foldl (parentBody a pc lvl) (st, adds)).2,
        x ∈ adds ∨ (x.1 ∈ keysOf l ∧ x.2.2 = lvl ∧ x.1 ∉ keysOf st.processed)) ∧
    ((keysOf adds).Nodup →
      (keysOf ((l.foldl (parentBody a pc lvl) (st, adds)).2)).Nodup) := by
  intro l
  induction l with
  | nil =>
    intro a pc lvl st adds h1 h2
    exact ⟨by simp, by simp, rfl, fun x hx => Or.inl hx, fun h => h⟩
  | cons p rest ih =>
    intro a pc lvl st adds h1 h2
    have hhead : p.1 ∉ keysOf rest := by
      have := h1; rw [keysOf_cons] at this
      exact (List.nodup_cons.mp this).1
    have htail : (keysOf rest).Nodup := by
      have := h1; rw [keysOf_cons] at this
      exact (List.nodup_cons.mp this).2
    have hfreshE : (pc, p.1) ∉ keysOf st.edge_to_quantity :=
      h2 p.1 (by rw [keysOf_cons]; exact List.mem_cons_self _ _)
    have hedge : (parentBody a pc lvl (st, adds) p).1.edge_to_quantity
        = st.edge_to_quantity ++ [((pc, p.1), p.2)] :=
      addTo_of_not_mem _ _ _ hfreshE
    have hrows : (parentBody a pc lvl (st, adds) p).1.output_rows
        = st.output_rows ++ [(⟨"001", pc, p.1, p.2, 0⟩ : OutRow)] := rfl
    have hproc : (parentBody a pc lvl (st, adds) p).1.processed = st.processed := rfl
    have haddsDef : (parentBody a pc lvl (st, adds) p).2
        = if !(containsKey st.processed p.1) && !(containsKey adds p.1) then
            adds ++ [(p.1, ((lookupK a.rep p.1).getD "", lvl))]
          else adds := rfl
    have haddsMem : ∀ x ∈ (parentBody a pc lvl (st, adds) p).2,
        x ∈ adds ∨ (x = (p.1, ((lookupK a.rep p.1).getD "", lvl)) ∧
          containsKey st.processed p.1 = false) := by
      intro x hx
      rw [haddsDef] at hx
      by_cases hg : (!(containsKey st.processed p.1) && !(containsKey adds p.1)) = true
      · rw [if_pos hg] at hx
        rw [Bool.and_eq_true, Bool.not_eq_true', Bool.not_eq_true'] at hg
        rcases List.mem_append.mp hx with hm | hm
        · exact Or.inl hm
        · exact Or.inr ⟨by simpa using hm, hg.1⟩
      · rw [if_neg hg] at hx
        exact Or.inl hx
    have haddsNodup : (keysOf adds).Nodup →
        (keysOf ((parentBody a pc lvl (st, adds) p).2)).Nodup := by
      intro hnd
      rw [haddsDef]
      by_cases hg : (!(containsKey st.processed p.1) && !(containsKey adds p.1)) = true
      · rw [if_pos hg]
        rw [Bool.and_eq_true, Bool.not_eq_true', Bool.not_eq_true'] at hg
        have hni : p.1 ∉ keysOf adds := fun hm =>
          by rw [mem_keys_containsKey adds p.1 hm] at hg; exact absurd hg.2 (by simp)
        rw [keysOf_append]
        refine List.Nodup.append hnd (List.nodup_singleton _) ?_
        intro x hx hmem
        have hxp : x = p.1 := by simpa [keysOf] using hmem
        exact hni (hxp ▸ hx)
      · rw [if_neg hg]
        exact hnd
    have ihm := ih a pc lvl (parentBody a pc lvl (st, adds) p).1
      (parentBody a pc lvl (st, adds) p).2 htail
      (by
        intro c hc
        rw [hedge, keysOf_append]
        intro hmem
        rcases List.mem_append.mp hmem with hm | hm
        · exact h2 c (by rw [keysOf_cons]; exact List.mem_cons_of_mem _ hc) hm
        · have hcp : (pc, c) = ((pc, p.1) : String × String) := by
            simpa [keysOf] using hm
          have : c = p.1 := congrArg Prod.snd hcp
          exact hhead (this ▸ hc))
    have hfold : (p :: rest).foldl (parentBody a pc lvl) (st, adds)
        = rest.foldl (parentBody a pc lvl) (parentBody a pc lvl (st, adds) p) := rfl
    obtain ⟨j1, j2, j3, j4, j5⟩ := ihm
    have hpair : (parentBody a pc lvl (st, adds) p)
        = ((parentBody a pc lvl (st, adds) p).1,
           (parentBody a pc lvl (st, adds) p).2) := rfl
    refine ⟨?_, ?_, ?_, ?_, ?_⟩
    · rw [hfold, hpair, j1, hedge, List.map_cons, List.append_assoc,
        List.singleton_append]
    · rw [hfold, hpair, j2, hrows, List.map_cons, List.append_assoc,
        List.singleton_append]
    · rw [hfold, hpair, j3, hproc]
    · intro x hx
      rw [hfold, hpair] at hx
      rcases j4 x hx with hm | ⟨hm1, hm2, hm3⟩
      · rcases haddsMem x hm with hm' | ⟨hm1', hm2'⟩
        · exact Or.inl hm'
        · refine Or.inr ⟨?_, ?_, ?_⟩
          · rw [hm1']; rw [keysOf_cons]; exact List.mem_cons_self _ _
          · rw [hm1']
          · rw [hm1']
            intro hmem
            rw [mem_keys_containsKey st.processed p.1 hmem] at hm2'
            exact absurd hm2' (by simp)
      · refine Or.inr ⟨?_, hm2, ?_⟩
        · rw [keysOf_cons]; exact List.mem_cons_of_mem _ hm1
        · rw [hproc] at hm3; exact hm3
    · intro hnd
      rw [hfold, hpair]
      exact j5 (haddsNodup hnd)

theorem keysOf_edgeBlockE (lvRows : List Row) (e : String × (String × Nat)) :
    ∀ k ∈ keysOf (edgeBlockE lvRows e),
      k.1 = e.1 ∧ k.2 ∈ keysOf (childAgg lvRows e.2.1) := by
  intro k hk
  simp only [edgeBlockE, keysOf, List.map_map, List.mem_map] at hk
  obtain ⟨p, hp, hpe⟩ := hk
  have hk2 : k = (e.1, p.1) := by rw [← hpe]; rfl
  subst hk2
  exact ⟨rfl, List.mem_map.mpr ⟨p, hp, rfl⟩⟩

/-- Effect of one full parent pass, stated against the original state. -/
theorem parentPass_spec (lvRows : List Row) (lvl : Nat) (pc pitem : String)
    (st : BState) (adds : Adds)
    (hfr : ∀ k ∈ keysOf st.edge_to_quantity, k.1 ≠ pc) :
    (parentPass lvRows lvl pc pitem (st, adds)).1.edge_to_quantity
        = st.edge_to_quantity
          ++ (childAgg lvRows pitem).map (fun p => ((pc, p.1), p.2)) ∧
    (parentPass lvRows lvl pc pitem (st, adds)).1.output_rows
        = st.output_rows
          ++ (childAgg lvRows pitem).map
              (fun p => (⟨"001", pc, p.1, p.2, 0⟩ : OutRow)) ∧
    (parentPass lvRows lvl pc pitem (st, adds)).1.processed = st.processed ∧
    (∀ x ∈ (parentPass lvRows lvl pc pitem (st, adds)).2,
        x ∈ adds ∨ (x.1 ∈ lvRows.map Row.code ∧ x.2.2 = lvl ∧
          x.1 ∉ keysOf st.processed)) ∧
    ((keysOf adds).Nodup →
      (keysOf ((parentPass lvRows lvl pc pitem (st, adds)).2)).Nodup) := by
  have h0 : parentPass lvRows lvl pc pitem (st, adds)
      = (childAgg lvRows pitem).foldl
          (parentBody (aggRows (lvRows.filter (fun r => matchesParent pitem r.item)))
            pc lvl)
          ({ st with duplicate_records := st.duplicate_records ++
              ((aggRows (lvRows.filter (fun r => matchesParent pitem r.item))).occ.foldl
                (fun acc p => acc ++ dupsFor p.2
                  ((lookupK (aggRows
                    (lvRows.filter (fun r => matchesParent pitem r.item))).agg
                    p.1).getD 0)) []) }, adds) := rfl
  obtain ⟨j1, j2, j3, j4, j5⟩ := parent_fold (childAgg lvRows pitem)
    (aggRows (lvRows.filter (fun r => matchesParent pitem r.item))) pc lvl
    { st with duplicate_records := st.duplicate_records ++
        ((aggRows (lvRows.filter (fun r => matchesParent pitem r.item))).occ.foldl
          (fun acc p => acc ++ dupsFor p.2
            ((lookupK (aggRows
              (lvRows.filter (fun r => matchesParent pitem r.item))).agg
              p.1).getD 0)) []) }
    adds (childAgg_keys_nodup lvRows pitem)
    (by
      intro c hc hmem
      exact hfr (pc, c) hmem rfl)
  rw [h0]
  refine ⟨j1, j2, j3, ?_, j5⟩
  intro x hx
  rcases j4 x hx with hm | ⟨hm1, hm2, hm3⟩
  · exact Or.inl hm
  · exact Or.inr ⟨childAgg_keys_sub lvRows pitem x.1 hm1, hm2, hm3⟩

/-- Effect of the fold over all previous-level parents: each parent
appends its edge and row blocks; registrations are untouched during the
fold; the accumulated next-level additions carry only fresh codes of the
scanned level. -/
theorem parents_fold : ∀ (ps : Adds) (lvRows : List Row) (lvl : Nat)
    (st : BState) (adds : Adds),
    (keysOf ps).Nodup →
    (∀ e ∈ ps, ∀ k ∈ keysOf st.edge_to_quantity, k.1 ≠ e.1) →
    (ps.foldl (passBody lvRows lvl) (st, adds)).1.edge_to_quantity
        = st.edge_to_quantity ++ (ps.map (edgeBlockE lvRows)).flatten ∧
    (ps.foldl (passBody lvRows lvl) (st, adds)).1.output_rows
        = st.output_rows ++ (ps.map (rowBlockE lvRows)).flatten ∧
    (ps.foldl (passBody lvRows lvl) (st, adds)).1.processed = st.processed ∧
    (∀ x ∈ (ps.foldl (passBody lvRows lvl) (st, adds)).2,
        x ∈ adds ∨ (x.1 ∈ lvRows.map Row.code ∧ x.2.2 = lvl ∧
          x.1 ∉ keysOf st.processed)) ∧
    ((keysOf adds).Nodup →
      (keysOf ((ps.foldl (passBody lvRows lvl) (st, adds)).2)).Nodup) := by
  intro ps
  induction ps with
  | nil =>
    intro lvRows lvl st adds h1 h2
    exact ⟨by simp, by simp, rfl, fun x hx => Or.inl hx, fun h => h⟩
  | cons e rest ih =>
    intro lvRows lvl st adds h1 h2
    have hhead : e.1 ∉ keysOf rest := by
      have := h1; rw [keysOf_cons] at this
      exact (List.nodup_cons.mp this).1
    have htail : (keysOf rest).Nodup := by
      have := h1; rw [keysOf_cons] at this
      exact (List.nodup_cons.mp this).2
    have hstep : passBody lvRows lvl (st, adds) e
        = parentPass lvRows lvl e.1 e.2.1 (st, adds) := rfl
    obtain ⟨j1, j2, j3, j4, j5⟩ := parentPass_spec lvRows lvl e.1 e.2.1 st adds
      (fun k hk => h2 e (List.mem_cons_self _ _) k hk)
    have hblockE : (childAgg lvRows e.2.1).map (fun p => ((e.1, p.1), p.2))
        = edgeBlockE lvRows e := rfl
    have hblockR : (childAgg lvRows e.2.1).map
        (fun p => (⟨"001", e.1, p.1, p.2, 0⟩ : OutRow)) = rowBlockE lvRows e := rfl
    have hfold : (e :: rest).foldl (passBody lvRows lvl) (st, adds)
        = rest.foldl (passBody lvRows lvl) (passBody lvRows lvl (st, adds) e) := rfl
    have hpair : passBody lvRows lvl (st, adds) e
        = ((passBody lvRows lvl (st, adds) e).1,
           (passBody lvRows lvl (st, adds) e).2) := rfl
    obtain ⟨i1, i2, i3, i4, i5⟩ := ih lvRows lvl
      (passBody lvRows lvl (st, adds) e).1 (passBody lvRows lvl (st, adds) e).2
      htail
      (by
        intro e2 he2 k hk
        rw [hstep, j1, keysOf_append] at hk
        rcases List.mem_append.mp hk with hm | hm
        · exact h2 e2 (List.mem_cons_of_mem _ he2) k hm
        · rw [hblockE] at hm
          have hk1 : k.1 = e.1 := (keysOf_edgeBlockE lvRows e k hm).1
          intro hcontra
          apply hhead
          rw [← hk1, hcontra]
          exact List.mem_map.mpr ⟨e2, he2, rfl⟩)
    refine ⟨?_, ?_, ?_, ?_, ?_⟩
    · rw [hfold, hpair, i1, hstep, j1, hblockE, List.map_cons,
        List.flatten_cons, List.append_assoc]
    · rw [hfold, hpair, i2, hstep, j2, hblockR, List.map_cons,
        List.flatten_cons, List.append_assoc]
    · rw [hfold, hpair, i3, hstep, j3]
    · intro x hx
      rw [hfold, hpair] at hx
      rcases i4 x hx with hm | ⟨hm1, hm2, hm3⟩
      · rcases j4 x (by rw [hstep] at hm; exact hm) with hm' | hm'
        · exact Or.inl hm'
        · exact Or.inr hm'
      · refine Or.inr ⟨hm1, hm2, ?_⟩
        rw [hstep, j3] at hm3
        exact hm3
    · intro hnd
      rw [hfold, hpair]
      apply i5
      rw [hstep]
      exact j5 hnd

theorem nodup_keys_unique {κ α : Type} :
    ∀ (m : List (κ × α)), (keysOf m).Nodup →
      ∀ a ∈ m, ∀ b ∈ m, a.1 = b.1 → a = b := by
  intro m
  induction m with
  | nil => intro _ a ha; simp at ha
  | cons p rest ih =>
    intro hnd a ha b hb hab
    have hhead : p.1 ∉ keysOf rest := by
      rw [keysOf_cons] at hnd; exact (List.nodup_cons.mp hnd).1
    have htail : (keysOf rest).Nodup := by
      rw [keysOf_cons] at hnd; exact (List.nodup_cons.mp hnd).2
    rcases List.mem_cons.mp ha with ha1 | ha1 <;>
      rcases List.mem_cons.mp hb with hb1 | hb1
    · rw [ha1, hb1]
    · exfalso
      apply hhead
      rw [ha1] at hab
      rw [hab]
      exact List.mem_map.mpr ⟨b, hb1, rfl⟩
    · exfalso
      apply hhead
      rw [hb1] at hab
      rw [← hab]
      exact List.mem_map.mpr ⟨a, ha1, rfl⟩
    · exact ih htail a ha1 b hb1 hab

theorem sumFor_append (m n : List ((String × String) × Qty)) (p : String) :
    sumFor (m ++ n) p = sumFor m p + sumFor n p := by
  simp [sumFor, List.filter_append, sumQ]

theorem sumFor_eq_zero (m : List ((String × String) × Qty)) (p : String)
    (h : ∀ k ∈ keysOf m, k.1 ≠ p) : sumFor m p = 0 := by
  have hf : m.filter (fun x => x.1.1 = p) = [] := by
    rw [List.filter_eq_nil_iff]
    intro x hx
    simp only [decide_eq_true_eq]
    exact h x.1 (List.mem_map.mpr ⟨x, hx, rfl⟩)
  rw [sumFor, hf]
  rfl

theorem sumFor_block_own : ∀ (l : List (String × Qty)) (pc : String),
    sumFor (l.map (fun p => ((pc, p.1), p.2))) pc = sumQ l := by
  intro l pc
  induction l with
  | nil => rfl
  | cons q rest ih =>
    rw [List.map_cons]
    have hstep : sumFor ((((pc, q.1), q.2)) ::
        rest.map (fun p => ((pc, p.1), p.2))) pc
        = q.2 + sumFor (rest.map (fun p => ((pc, p.1), p.2))) pc := by
      simp [sumFor, List.filter_cons, sumQ_cons]
    rw [hstep, ih, sumQ_cons]

theorem sumFor_block_other (l : List (String × Qty)) (pc c : String)
    (h : pc ≠ c) : sumFor (l.map (fun p => ((pc, p.1), p.2))) c = 0 := by
  apply sumFor_eq_zero
  intro k hk
  rcases List.mem_map.mp hk with ⟨x, hx, hxe⟩
  rcases List.mem_map.mp hx with ⟨p, hp, hpe⟩
  rw [← hxe, ← hpe]
  exact h

theorem sumFor_blocks_notmem (lvRows : List Row) :
    ∀ (ps : Adds) (c : String), (∀ e ∈ ps, e.1 ≠ c) →
      sumFor ((ps.map (edgeBlockE lvRows)).flatten) c = 0 := by
  intro ps
  induction ps with
  | nil => intro c h; rfl
  | cons e rest ih =>
    intro c h
    rw [List.map_cons, List.flatten_cons, sumFor_append]
    rw [ih c (fun f hf => h f (List.mem_cons_of_mem _ hf))]
    have : sumFor (edgeBlockE lvRows e) c = 0 :=
      sumFor_block_other _ _ _ (h e (List.mem_cons_self _ _))
    rw [this]
    rfl

theorem sumFor_blocks_mem (lvRows : List Row) :
    ∀ (ps : Adds) (e : String × (String × Nat)),
      (keysOf ps).Nodup → e ∈ ps →
      sumFor ((ps.map (edgeBlockE lvRows)).flatten) e.1
        = sumQ (childAgg lvRows e.2.1) := by
  intro ps
  induction ps with
  | nil => intro e _ he; simp at he
  | cons f rest ih =>
    intro e hnd he
    have hhead : f.1 ∉ keysOf rest := by
      rw [keysOf_cons] at hnd; exact (List.nodup_cons.mp hnd).1
    have htail : (keysOf rest).Nodup := by
      rw [keysOf_cons] at hnd; exact (List.nodup_cons.mp hnd).2
    rw [List.map_cons, List.flatten_cons, sumFor_append]
    rcases List.mem_cons.mp he with he1 | he1
    · subst he1
      have hown : sumFor (edgeBlockE lvRows e) e.1
          = sumQ (childAgg lvRows e.2.1) := sumFor_block_own _ _
      have hrest : sumFor ((rest.map (edgeBlockE lvRows)).flatten) e.1 = 0 := by
        apply sumFor_blocks_notmem
        intro f2 hf2 hcon
        exact hhead (hcon ▸ List.mem_map.mpr ⟨f2, hf2, rfl⟩)
      rw [hown, hrest, add_zero]
    · have hfn : f.1 ≠ e.1 := by
        intro hcon
        exact hhead (hcon ▸ List.mem_map.mpr ⟨e, he1, rfl⟩)
      have hblk : sumFor (edgeBlockE lvRows f) e.1 = 0 :=
        sumFor_block_other _ _ _ hfn
      rw [hblk, ih e htail he1, zero_add]

theorem pair_rowBlock (lvRows : List Row) (e : String × (String × Nat)) :
    (rowBlockE lvRows e).map (fun r => (r.mtg, r.cod))
      = keysOf (edgeBlockE lvRows e) := by
  simp [rowBlockE, edgeBlockE, keysOf, List.map_map]

theorem keysOf_edgeBlockE_eq (lvRows : List Row) (e : String × (String × Nat)) :
    keysOf (edgeBlockE lvRows e)
      = (keysOf (childAgg lvRows e.2.1)).map (fun c => (e.1, c)) := by
  simp [edgeBlockE, keysOf, List.map_map]

/-- One pass of the while loop preserves the builder invariant, advancing
the level by one. -/
theorem BInv_levelPass (idx : LIndex) (root : String) (lvl : Nat) (st : BState)
    (h1 : 1 ≤ lvl) (hf : RootFresh idx root) (inv : BInv idx root lvl st) :
    BInv idx root (lvl + 1) (levelPass idx lvl st) := by
  set lvRows := (lookupK idx lvl).getD [] with hlvRows
  set ps := st.processed.filter (fun p => p.2.2 == lvl - 1) with hps
  have hpsSub : ∀ e ∈ ps, e ∈ st.processed := fun e he => (List.mem_filter.mp he).1
  have hpsLvl : ∀ e ∈ ps, e.2.2 = lvl - 1 := by
    intro e he
    have h := (List.mem_filter.mp he).2
    simpa using h
  have hpsLvl1 : ∀ e ∈ ps, e.2.2 + 1 = lvl := by
    intro e he
    have := hpsLvl e he
    omega
  have hmemPs : ∀ e ∈ st.processed, e.2.2 = lvl - 1 → e ∈ ps := by
    intro e he hlv
    exact List.mem_filter.mpr ⟨he, by simp [hlv]⟩
  have hpsNodup : (keysOf ps).Nodup := by
    have hsub : List.Sublist (keysOf ps) (keysOf st.processed) :=
      List.Sublist.map _ (List.filter_sublist _)
    exact inv.nodupP.sublist hsub
  have hEdgeFresh : ∀ e ∈ ps, ∀ k ∈ keysOf st.edge_to_quantity, k.1 ≠ e.1 := by
    intro e he k hk hcon
    rcases inv.edgeOwner k hk with hroot | ⟨e2, he2, he2k, he2lvl⟩
    · exact inv.notRoot e (hpsSub e he) (by rw [← hcon, hroot])
    · have hee : e2 = e :=
        nodup_keys_unique st.processed inv.nodupP e2 he2 e (hpsSub e he)
          (by rw [he2k, hcon])
      rw [hee] at he2lvl
      have := hpsLvl1 e he
      omega
  obtain ⟨f1, f2, f3, f4, f5⟩ := parents_fold ps lvRows lvl st [] hpsNodup hEdgeFresh
  have hlp : levelPass idx lvl st
      = { (ps.foldl (passBody lvRows lvl) (st, ([] : Adds))).1 with
          processed := (ps.foldl (passBody lvRows lvl) (st, ([] : Adds))).1.processed
            ++ (ps.foldl (passBody lvRows lvl) (st, ([] : Adds))).2 } := rfl
  set r := ps.foldl (passBody lvRows lvl) (st, ([] : Adds)) with hr
  have hAdds : ∀ x ∈ r.2, x.1 ∈ lvRows.map Row.code ∧ x.2.2 = lvl ∧
      x.1 ∉ keysOf st.processed := by
    intro x hx
    rcases f4 x hx with hm | hm
    · simp at hm
    · exact hm
  have hAddsNodup : (keysOf r.2).Nodup := f5 (by simp [keysOf])
  have hAddsNotRoot : ∀ x ∈ r.2, x.1 ≠ root := by
    intro x hx
    have hcode := (hAdds x hx).1
    rcases List.mem_map.mp hcode with ⟨rr, hrr, hre⟩
    cases hlk : lookupK idx lvl with
    | none =>
      rw [hlvRows, hlk] at hrr
      simp at hrr
    | some rows =>
      have hmem : (lvl, rows) ∈ idx := lookupK_some_mem idx lvl rows hlk
      have hrr2 : rr ∈ rows := by rw [hlvRows, hlk] at hrr; exact hrr
      rw [← hre]
      exact hf (lvl, rows) hmem rr hrr2
  have hNewKeys : ∀ k ∈ keysOf ((ps.map (edgeBlockE lvRows)).flatten),
      ∃ e ∈ ps, k.1 = e.1 := by
    intro k hk
    rcases List.mem_map.mp hk with ⟨x, hx, hxe⟩
    rcases List.mem_flatten.mp hx with ⟨blk, hblk, hxblk⟩
    rcases List.mem_map.mp hblk with ⟨e, he, hbe⟩
    refine ⟨e, he, ?_⟩
    have hxm : x.1 ∈ keysOf (edgeBlockE lvRows e) := by
      rw [hbe]
      exact List.mem_map.mpr ⟨x, hxblk, rfl⟩
    rw [← hxe]
    exact (keysOf_edgeBlockE lvRows e x.1 hxm).1
  have hSfields1 : (levelPass idx lvl st).edge_to_quantity
      = st.edge_to_quantity ++ (ps.map (edgeBlockE lvRows)).flatten := by
    rw [hlp]; exact f1
  have hSfields2 : (levelPass idx lvl st).output_rows
      = st.output_rows ++ (ps.map (rowBlockE lvRows)).flatten := by
    rw [hlp]; exact f2
  have hSfields3 : (levelPass idx lvl st).processed = st.processed ++ r.2 := by
    rw [hlp]
    show r.1.processed ++ r.2 = st.processed ++ r.2
    rw [f3]
  have hPairsNew : ((ps.map (rowBlockE lvRows)).flatten).map
        (fun row => (row.mtg, row.cod))
      = keysOf ((ps.map (edgeBlockE lvRows)).flatten) := by
    simp only [keysOf, List.map_flatten, List.map_map]
    congr 1
    apply List.map_congr_left
    intro e he
    exact pair_rowBlock lvRows e
  have hKeysNewNodup : (keysOf ((ps.map (edgeBlockE lvRows)).flatten)).Nodup := by
    have hkf : keysOf ((ps.map (edgeBlockE lvRows)).flatten)
        = (ps.map (fun e => keysOf (edgeBlockE lvRows e))).flatten := by
      simp [keysOf, List.map_flatten, List.map_map, Function.comp_def]
    rw [hkf]
    rw [List.nodup_flatten]
    constructor
    · intro l hl
      rcases List.mem_map.mp hl with ⟨e, he, hle⟩
      rw [← hle, keysOf_edgeBlockE_eq]
      exact (childAgg_keys_nodup lvRows e.2.1).map
        (fun c1 c2 hc => by simpa using hc)
    · rw [List.pairwise_map]
      have hN : (ps.map Prod.fst).Nodup := hpsNodup
      have hpw : List.Pairwise (fun a b => a.1 ≠ b.1) ps := List.pairwise_map.mp hN
      refine hpw.imp ?_
      intro a b hab k hk1 hk2
      have h1k := (keysOf_edgeBlockE lvRows a k hk1).1
      have h2k := (keysOf_edgeBlockE lvRows b k hk2).1
      exact hab (by rw [← h1k, ← h2k])
  refine
    { pairEq := ?_, nodupE := ?_, nodupP := ?_, lvlLt := ?_, notRoot := ?_,
      edgeOwner := ?_, sumOk := ?_ }
  · simp only [pairsOf]
    rw [hSfields2, List.map_append, hPairsNew, hSfields1, keysOf_append]
    have hold : st.output_rows.map (fun row => (row.mtg, row.cod))
        = keysOf st.edge_to_quantity := inv.pairEq
    rw [hold]
  · rw [hSfields1, keysOf_append]
    refine List.Nodup.append inv.nodupE hKeysNewNodup ?_
    intro k hk1 hk2
    rcases hNewKeys k hk2 with ⟨e, he, hke⟩
    exact hEdgeFresh e he k hk1 hke
  · rw [hSfields3, keysOf_append]
    refine List.Nodup.append inv.nodupP hAddsNodup ?_
    intro k hk1 hk2
    rcases List.mem_map.mp hk2 with ⟨x, hx, hxe⟩
    exact (hAdds x hx).2.2 (hxe ▸ hk1)
  · intro e he
    rw [hSfields3] at he
    rcases List.mem_append.mp he with hm | hm
    · exact Nat.lt_trans (inv.lvlLt e hm) (Nat.lt_succ_self _)
    · rw [(hAdds e hm).2.1]
      exact Nat.lt_succ_self _
  · intro e he
    rw [hSfields3] at he
    rcases List.mem_append.mp he with hm | hm
    · exact inv.notRoot e hm
    · exact hAddsNotRoot e hm
  · intro k hk
    rw [hSfields1, keysOf_append] at hk
    rcases List.mem_append.mp hk with hm | hm
    · rcases inv.edgeOwner k hm with hroot | ⟨e2, he2, hx, hy⟩
      · exact Or.inl hroot
      · refine Or.inr ⟨e2, ?_, hx, by omega⟩
        rw [hSfields3]
        exact List.mem_append_left _ he2
    · rcases hNewKeys k hm with ⟨e, he, hke⟩
      refine Or.inr ⟨e, ?_, hke.symm, ?_⟩
      · rw [hSfields3]
        exact List.mem_append_left _ (hpsSub e he)
      · have := hpsLvl1 e he
        omega
  · intro e2 he2
    rw [hSfields3] at he2
    rw [hSfields1, sumFor_append]
    rcases List.mem_append.mp he2 with hm | hm
    · by_cases hE2 : e2.2.2 = lvl - 1
      · have hinPs : e2 ∈ ps := hmemPs e2 hm hE2
        have h21 : e2.2.2 + 1 = lvl := hpsLvl1 e2 hinPs
        have hold : sumFor st.edge_to_quantity e2.1 = 0 := by
          have hh := inv.sumOk e2 hm
          rw [if_neg (by omega)] at hh
          exact hh
        have hnew : sumFor ((ps.map (edgeBlockE lvRows)).flatten) e2.1
            = sumQ (childAgg lvRows e2.2.1) :=
          sumFor_blocks_mem lvRows ps e2 hpsNodup hinPs
        rw [hold, hnew, zero_add, childAgg_sum, if_pos (by omega), h21]
        simp only [rowsAtL]
      · have h2lt : e2.2.2 + 1 < lvl := by
          have := inv.lvlLt e2 hm
          omega
        have hold := inv.sumOk e2 hm
        rw [if_pos h2lt] at hold
        have hnew : sumFor ((ps.map (edgeBlockE lvRows)).flatten) e2.1 = 0 := by
          apply sumFor_blocks_notmem
          intro f hfPs hcon
          have hfe : f = e2 :=
            nodup_keys_unique st.processed inv.nodupP f (hpsSub f hfPs) e2 hm hcon
          rw [hfe] at hfPs
          exact hE2 (hpsLvl e2 hfPs)
        rw [hold, hnew, add_zero, if_pos (by omega)]
    · obtain ⟨h3a, h3b, h3c⟩ := hAdds e2 hm
      rw [if_neg (by omega)]
      have hold : sumFor st.edge_to_quantity e2.1 = 0 := by
        apply sumFor_eq_zero
        intro k hk hcon
        rcases inv.edgeOwner k hk with hroot | ⟨e3, he3, hx, _⟩
        · exact hAddsNotRoot e2 hm (by rw [← hcon, hroot])
        · apply h3c
          rw [← hcon, ← hx]
          exact List.mem_map.mpr ⟨e3, he3, rfl⟩
      have hnew : sumFor ((ps.map (edgeBlockE lvRows)).flatten) e2.1 = 0 := by
        apply sumFor_blocks_notmem
        intro f hfPs hcon
        apply h3c
        rw [← hcon]
        exact List.mem_map.mpr ⟨f, hpsSub f hfPs, rfl⟩
      rw [hold, hnew, add_zero]

theorem BInv_initState (idx : LIndex) (root : String) : BInv idx root 1 initState := by
  refine
    { pairEq := rfl, nodupE := List.nodup_nil, nodupP := List.nodup_nil,
      lvlLt := ?_, notRoot := ?_, edgeOwner := ?_, sumOk := ?_ } <;>
    intro e he <;> simp [initState, keysOf] at he

/-- The level-0 pass establishes the builder invariant at level 1. -/
theorem BInv_level0 (idx : LIndex) (root : String) (hf : RootFresh idx root) :
    BInv idx root 1 (level0Pass idx root) := by
  cases hlk : lookupK idx 0 with
  | none =>
    have h0 : level0Pass idx root = initState := by simp [level0Pass, hlk]
    rw [h0]
    exact BInv_initState idx root
  | some rows =>
    have h0 : level0Pass idx root = emitLevel0 root (aggRows rows) initState := by
      simp [level0Pass, hlk]
    obtain ⟨g1, g2, g3⟩ := emitL0_fold (aggRows rows).agg root (aggRows rows)
      initState (aggRows_keys_nodup rows) (by simp [initState, keysOf])
      (by simp [initState, keysOf])
    have hrowsFresh : ∀ c ∈ rows.map Row.code, c ≠ root := by
      intro c hc
      rcases List.mem_map.mp hc with ⟨rr, hrr, hre⟩
      have hmem : (0, rows) ∈ idx := lookupK_some_mem idx 0 rows hlk
      rw [← hre]
      exact hf (0, rows) hmem rr hrr
    have hE : (emitLevel0 root (aggRows rows) initState).edge_to_quantity
        = (aggRows rows).agg.map (fun p => ((root, p.1), p.2)) := by
      have := g1
      simpa [initState] using this
    have hR : (emitLevel0 root (aggRows rows) initState).output_rows
        = (aggRows rows).agg.map
            (fun p => (⟨"001", root, p.1, p.2, 0⟩ : OutRow)) := by
      have := g2
      simpa [initState] using this
    have hP : (emitLevel0 root (aggRows rows) initState).processed
        = (aggRows rows).agg.map
            (fun p => (p.1, ((lookupK (aggRows rows).rep p.1).getD "", 0))) := by
      have := g3
      simpa [initState] using this
    rw [h0]
    have hPmem : ∀ e ∈ (emitLevel0 root (aggRows rows) initState).processed,
        e.1 ∈ keysOf (aggRows rows).agg ∧ e.2.2 = 0 := by
      intro e he
      rw [hP] at he
      rcases List.mem_map.mp he with ⟨p, hp, hpe⟩
      constructor
      · rw [← hpe]
        exact List.mem_map.mpr ⟨p, hp, rfl⟩
      · rw [← hpe]
    refine
      { pairEq := ?_, nodupE := ?_, nodupP := ?_, lvlLt := ?_, notRoot := ?_,
        edgeOwner := ?_, sumOk := ?_ }
    · simp only [pairsOf, hR, hE, keysOf, List.map_map]
      rfl
    · have hkeys : keysOf (emitLevel0 root (aggRows rows) initState).edge_to_quantity
          = (keysOf (aggRows rows).agg).map (fun c => (root, c)) := by
        simp [hE, keysOf, List.map_map]
      rw [hkeys]
      exact (aggRows_keys_nodup rows).map (fun c1 c2 hc => by simpa using hc)
    · have hkeys : keysOf (emitLevel0 root (aggRows rows) initState).processed
          = keysOf (aggRows rows).agg := by
        simp [hP, keysOf, List.map_map]
      rw [hkeys]
      exact aggRows_keys_nodup rows
    · intro e he
      rw [(hPmem e he).2]
      omega
    · intro e he
      exact hrowsFresh e.1 (aggRows_keys_sub rows e.1 (hPmem e he).1)
    · intro k hk
      rw [hE] at hk
      rcases List.mem_map.mp hk with ⟨x, hx, hxe⟩
      rcases List.mem_map.mp hx with ⟨p, hp, hpe⟩
      left
      rw [← hxe, ← hpe]
    · intro e he
      rw [if_neg (by rw [(hPmem e he).2]; omega)]
      apply sumFor_eq_zero
      intro k hk hcon
      rw [hE] at hk
      rcases List.mem_map.mp hk with ⟨x, hx, hxe⟩
      rcases List.mem_map.mp hx with ⟨p, hp, hpe⟩
      have hk1 : k.1 = root := by rw [← hxe, ← hpe]
      exact hrowsFresh e.1 (aggRows_keys_sub rows e.1 (hPmem e he).1)
        (by rw [← hcon, hk1])

/-- The builder invariant is preserved by the whole loop, for any fuel. -/
theorem BInv_loop (idx : LIndex) (root : String) (hf : RootFresh idx root) :
    ∀ (fuel : Nat) (st : BState) (lvl : Nat), 1 ≤ lvl → BInv idx root lvl st →
      1 ≤ (buildLoop idx fuel st lvl).2 ∧
      BInv idx root (buildLoop idx fuel st lvl).2 (buildLoop idx fuel st lvl).1 := by
  intro fuel
  induction fuel with
  | zero => intro st lvl h1 inv; exact ⟨h1, inv⟩
  | succ fuel ih =>
    intro st lvl h1 inv
    cases hc : loopCond idx st lvl with
    | false =>
      simp only [buildLoop, hc, if_false]
      exact ⟨h1, inv⟩
    | true =>
      simp only [buildLoop, hc, if_true]
      exact ih (levelPass idx lvl st) (lvl + 1) (by omega)
        (BInv_levelPass idx root lvl st h1 hf inv)

/-- C1 (amended): provided the root assembly code is not the converted
code of any classified row, the emitted rows carry exactly the distinct
(parent, child) pairs of the edge map, in order and without duplicates,
the number of emitted rows equals the number of edge-map entries, and the
Verifier count check passes. The amendment restricts to root codes that do
not collide with a component code; the counterexample shows the claim
fails without it. -/
theorem claim_C1_amended_dedup (idx : LIndex) (root : String)
    (hf : RootFresh idx root) :
    pairsOf (build_parent_child_relationships idx root)
      = keysOf (build_parent_child_relationships idx root).edge_to_quantity ∧
    (keysOf (build_parent_child_relationships idx root).edge_to_quantity).Nodup ∧
    (build_parent_child_relationships idx root).output_rows.length
      = (build_parent_child_relationships idx root).edge_to_quantity.length ∧
    verifyCount (build_parent_child_relationships idx root) = true := by
  have hinit := BInv_level0 idx root hf
  have hloop := (BInv_loop idx root hf (maxKey idx + 1) (level0Pass idx root) 1
    (le_refl 1) hinit).2
  have hb : build_parent_child_relationships idx root
      = (buildLoop idx (maxKey idx + 1) (level0Pass idx root) 1).1 := rfl
  have hlen : (build_parent_child_relationships idx root).output_rows.length
      = (build_parent_child_relationships idx root).edge_to_quantity.length := by
    have h1 : (build_parent_child_relationships idx root).output_rows.length
        = (pairsOf (build_parent_child_relationships idx root)).length := by
      simp [pairsOf]
    rw [h1, hb, hloop.pairEq]
    simp [keysOf]
  refine ⟨?_, ?_, hlen, ?_⟩
  · rw [hb]; exact hloop.pairEq
  · rw [hb]; exact hloop.nodupE
  · simp [verifyCount, hlen]

/-- Witness for C1 at the Scenario A input. -/
theorem claim_C1_witness :
    RootFresh idxScenarioA "ROOT" ∧
    verifyCount (build_parent_child_relationships idxScenarioA "ROOT") = true :=
  ⟨by decide, (claim_C1_amended_dedup idxScenarioA "ROOT" (by decide)).2.2.2⟩

/-- C2 (amended): provided the root assembly code is not the converted
code of any classified row, every parent code registered by the builder
carries, on its outgoing edges, exactly the quantity sum (missing
quantities counted 0) of the rows at the level just below its registration
depth whose positions prefix-match its representative position. The
amendment restricts to root codes that do not collide with a component
code; the counterexample shows the claim fails without it. -/
theorem claim_C2_amended_conservation (idx : LIndex) (root : String)
    (hf : RootFresh idx root) :
    ∀ e ∈ (build_parent_child_relationships idx root).processed,
      sumFor (build_parent_child_relationships idx root).edge_to_quantity e.1
        = rowsQtySum ((rowsAtL idx (e.2.2 + 1)).filter
            (fun r => matchesParent e.2.1 r.item)) := by
  have hinit := BInv_level0 idx root hf
  obtain ⟨hK1, hloop⟩ := BInv_loop idx root hf (maxKey idx + 1)
    (level0Pass idx root) 1 (le_refl 1) hinit
  have hexit := buildLoop_exit_cond idx (maxKey idx + 1) (level0Pass idx root) 1
    (by omega)
  have hb : build_parent_child_relationships idx root
      = (buildLoop idx (maxKey idx + 1) (level0Pass idx root) 1).1 := rfl
  rw [hb]
  intro e he
  have hsum := hloop.sumOk e he
  by_cases hlt : e.2.2 + 1 < (buildLoop idx (maxKey idx + 1) (level0Pass idx root) 1).2
  · rw [if_pos hlt] at hsum
    exact hsum
  · have hKe : e.2.2 + 1 = (buildLoop idx (maxKey idx + 1) (level0Pass idx root) 1).2 := by
      have := hloop.lvlLt e he
      omega
    rw [if_neg hlt] at hsum
    have hany : ((buildLoop idx (maxKey idx + 1) (level0Pass idx root) 1).1.processed.any
        (fun p => p.2.2 == (buildLoop idx (maxKey idx + 1) (level0Pass idx root) 1).2 - 1))
        = true := by
      rw [List.any_eq_true]
      refine ⟨e, he, ?_⟩
      have : e.2.2 = (buildLoop idx (maxKey idx + 1) (level0Pass idx root) 1).2 - 1 := by
        omega
      simp [this]
    have hck : containsKey idx
        (buildLoop idx (maxKey idx + 1) (level0Pass idx root) 1).2 = false := by
      cases hck2 : containsKey idx
          (buildLoop idx (maxKey idx + 1) (level0Pass idx root) 1).2 with
      | false => rfl
      | true =>
        exfalso
        rw [loopCond, hck2, Bool.true_and, hany] at hexit
        cases hexit
    have hrows0 : rowsAtL idx (e.2.2 + 1) = [] := by
      rw [hKe, rowsAtL]
      cases hlk : lookupK idx
          (buildLoop idx (maxKey idx + 1) (level0Pass idx root) 1).2 with
      | none => simp
      | some rows =>
        rw [containsKey, hlk] at hck
        simp at hck
    rw [hsum, hrows0]
    simp [rowsQtySum]

/-- Witness for C2 at the Scenario A input: the registered parent
G12061001 carries quantity 3, the sum of its single matched level-1
row. -/
theorem claim_C2_witness :
    RootFresh idxScenarioA "ROOT" ∧
    sumFor (build_parent_child_relationships idxScenarioA "ROOT").edge_to_quantity
        "G12061001"
      = rowsQtySum ((rowsAtL idxScenarioA 1).filter
          (fun r => matchesParent "1" r.item)) :=
  ⟨by decide,
    claim_C2_amended_conservation idxScenarioA "ROOT" (by decide)
      ("G12061001", ("1", 0)) (by decide)⟩

end SolidStructure
